import Mathlib

/-!
Shallow embedding of the `graph_ascii.dag` rendering pipeline.

The Python sources embedded here are:
  `_symbol.py`   (SymbolType, Symbol),
  `_string.py`   (longest_common_prefix / suffix),
  `_collections.py` (group_by_key),
  `_graph.py`    (Graph: _init_nodes, _node_height, node_heights,
                  reverse_edges, height_groups),
  `_render.py`   (Plan, Cursor, Cursors, Step, Renderer, _move_left,
                  _find_step, _merge_symbols, _resolve_conflict),
  `_printer.py`  (PrinterOptions, Printer, _RowPrinter).

Modelling conventions.
Python dicts are embedded as association lists in insertion order with
first-match lookup (keys are unique in a dict, so first-match equals
dict lookup); sets of neighbour nodes are embedded as lists in
iteration order.  Node identifiers are `Nat` (the repository's tests
use ints).  Grid columns are `Int`, as in the source.  Fallible code
(`max()` of an empty sequence raises ValueError, `list.pop` of an
empty list raises IndexError, the `raise RuntimeError` branch of
`_move_left`, unbounded recursion) is embedded in `Except String`.
The unbounded recursions of `_node_height`, `Renderer._move_left` and
`Renderer._make_symbols` are given explicit fuel; the fuel bounds are
chosen so that they are provably sufficient whenever the Python
recursion terminates (this is proved for the relaxation loop below).
-/

namespace GraphAscii

/-- Association-list lookup with first match; models Python dict indexing
(dict keys are unique, so the first match is the only match). -/
def alookup {α : Type} : List (Nat × α) → Nat → Option α
  | [], _ => none
  | (k, v) :: rest, key => if key = k then some v else alookup rest key

/-- The keys of an association list, in order. -/
def akeys {α : Type} (l : List (Nat × α)) : List Nat := l.map (fun p => p.1)

/-- Membership test for a key, models `key in dict`. -/
def hasKey {α : Type} (l : List (Nat × α)) (k : Nat) : Bool := (alookup l k).isSome

/-- Integer-keyed lookup where the LAST binding wins; models building a
Python dict by successive assignments (`d[k] = v` overwrites). -/
def lookupLast {α : Type} : List (Int × α) → Int → Option α
  | l, k => l.foldl (fun acc p => if p.1 = k then some p.2 else acc) none

/-- `group_by_key` of `_collections.py`: keys in first-occurrence order,
each group in occurrence order. -/
def addToGroup {κ α : Type} [DecidableEq κ] : List (κ × List α) → κ → α → List (κ × List α)
  | [], k, v => [(k, [v])]
  | (k', vs) :: rest, k, v =>
    if k = k' then (k', vs ++ [v]) :: rest else (k', vs) :: addToGroup rest k v

/-- `group_by_key(items)` from `_collections.py`. -/
def groupByKey {κ α : Type} [DecidableEq κ] (items : List (κ × α)) : List (κ × List α) :=
  items.foldl (fun acc p => addToGroup acc p.1 p.2) []

/-- `Symbol.symbol_type` values, from `_symbol.py`. -/
inductive SymbolType where
  | CROSS
  | HOLD
  | LEFT
  | LEFT_MOVE
  | NODE
  | RIGHT
  | RIGHT_MOVE
  | SPACE
  deriving DecidableEq

/-- `_SYMBOL_CHAR` of `_symbol.py`. -/
def SymbolType.toChar : SymbolType → Char
  | .CROSS => 'x'
  | .HOLD => '|'
  | .LEFT => '/'
  | .LEFT_MOVE => '_'
  | .NODE => 'o'
  | .RIGHT => '\\'
  | .RIGHT_MOVE => '_'
  | .SPACE => ' '

/-- `Symbol` of `_symbol.py`: a symbol type together with an optional
label (meaningful only for NODE; defaults to the empty string). -/
structure Symbol where
  symbol_type : SymbolType
  label : String := ""
  deriving DecidableEq

def Symbol.is_cross (s : Symbol) : Bool := s.symbol_type = SymbolType.CROSS
def Symbol.is_hold (s : Symbol) : Bool := s.symbol_type = SymbolType.HOLD
def Symbol.is_left (s : Symbol) : Bool := s.symbol_type = SymbolType.LEFT
def Symbol.is_node (s : Symbol) : Bool := s.symbol_type = SymbolType.NODE
def Symbol.is_right (s : Symbol) : Bool := s.symbol_type = SymbolType.RIGHT
def Symbol.is_space (s : Symbol) : Bool := s.symbol_type = SymbolType.SPACE
def Symbol.toChar (s : Symbol) : Char := s.symbol_type.toChar

/-- `Graph` of `_graph.py`: `nodes` maps a node to its label string,
`edges` maps a node to its set of neighbours. -/
structure Graph where
  nodes : List (Nat × String)
  edges : List (Nat × List Nat)
  deriving DecidableEq

/-- Register a node with an empty label if it is not present yet
(one step of `Graph._init_nodes`). -/
def addMissing (nodes : List (Nat × String)) (k : Nat) : List (Nat × String) :=
  if hasKey nodes k then nodes else nodes ++ [(k, "")]

/-- `Graph._init_nodes`: every endpoint appearing in `edges` is added to
`nodes` with an empty label if absent. -/
def initNodes (g : Graph) : Graph :=
  { g with
    nodes := g.edges.foldl
      (fun ns p => p.2.foldl addMissing (addMissing ns p.1)) g.nodes }

/-- Python dict assignment `d[k] = v`: replace the value in place when
the key exists, append the binding otherwise. -/
def setAssoc {α : Type} : List (Nat × α) → Nat → α → List (Nat × α)
  | [], k, v => [(k, v)]
  | (k', v') :: rest, k, v =>
    if k = k' then (k, v) :: rest else (k', v') :: setAssoc rest k v

/-- The sequential fold of `max(...)` over the neighbour generator of
`_node_height`: folds the remaining neighbours with the given
recursive-call function, threading the memo table and accumulating the
running maximum of their heights. -/
def nodeHeightFold (step : List (Nat × Nat) → Nat → Except String (List (Nat × Nat) × Nat)) :
    List (Nat × Nat) → List Nat → Nat → Except String (List (Nat × Nat) × Nat)
  | mapping, [], acc => .ok (mapping, acc)
  | mapping, m :: ms, acc => do
    let r ← step mapping m
    nodeHeightFold step r.1 ms (Nat.max acc r.2)

/-- `Graph._node_height` (the memoised recursive height).  The mapping
argument is the memo dict (entries appended in post-order, as in the
source).  Fuel models Python's recursion limit; on a node whose edges
entry is an empty collection, `max()` of an empty sequence raises
ValueError, which the source does not catch. -/
def nodeHeightAux (edges : List (Nat × List Nat)) :
    Nat → List (Nat × Nat) → Nat → Except String (List (Nat × Nat) × Nat)
  | 0, _, _ => .error "maximum recursion depth exceeded"
  | fuel + 1, mapping, node =>
    match alookup mapping node with
    | some h => .ok (mapping, h)
    | none =>
      match alookup edges node with
      | none => .ok (setAssoc mapping node 0, 0)
      | some [] => .error "max() arg is an empty sequence"
      | some (m :: ms) => do
        let r1 ← nodeHeightAux edges fuel mapping m
        let r2 ← nodeHeightFold (nodeHeightAux edges fuel) r1.1 ms r1.2
        .ok (setAssoc r2.1 node (1 + r2.2), 1 + r2.2)

/-- `Graph.node_heights`: walk the node dict in order, computing every
node's height into a shared memo table.  The fuel `edges.length + 1`
is sufficient for every acyclic graph (a node of height h sits on top
of a chain of h nodes that all have outgoing edges). -/
def nodeHeightsRun (g : Graph) : Except String (List (Nat × Nat)) :=
  g.nodes.foldlM
    (fun mapping p => do
      let r ← nodeHeightAux g.edges (g.edges.length + 1) mapping p.1
      pure r.1)
    []

/-- Insert `src` into the reverse adjacency of `dest`
(`edges_rev[dest].add(src)` on a defaultdict of sets). -/
def updateAssoc (l : List (Nat × List Nat)) (k : Nat) (v : Nat) : List (Nat × List Nat) :=
  match l with
  | [] => [(k, [v])]
  | (k', vs) :: rest =>
    if k = k' then (k', if v ∈ vs then vs else vs ++ [v]) :: rest
    else (k', vs) :: updateAssoc rest k v

/-- `Graph.reverse_edges`: a graph with the same nodes and all edges
reversed (the constructor re-runs `_init_nodes`, a no-op here since
every endpoint is already registered). -/
def reverseEdges (g : Graph) : Graph :=
  initNodes
    { nodes := g.nodes,
      edges := g.edges.foldl
        (fun acc p => p.2.foldl (fun a d => updateAssoc a d p.1) acc) [] }

/-- Strict lexicographic comparison of char lists by code point
(Python string `<`). -/
def lexLt : List Char → List Char → Bool
  | [], [] => false
  | [], _ :: _ => true
  | _ :: _, [] => false
  | a :: as, b :: bs =>
    if a.toNat < b.toNat then true
    else if b.toNat < a.toNat then false
    else lexLt as bs

/-- Python string `<` on our strings. -/
def strLtB (a b : String) : Bool := lexLt a.data b.data

/-- Strict comparison by the sort key `(-score(node), label(node))` of
`Graph.height_groups` (tuple comparison is lexicographic; negating the
score swaps the order of the scores). -/
def sortKeyLt (score : Nat → Nat) (label : Nat → String) (a b : Nat) : Bool :=
  if score b < score a then true
  else if score a = score b then strLtB (label a) (label b)
  else false

/-- Stable insertion of `x` after all earlier elements not strictly
greater than it. -/
def insertS (lt : Nat → Nat → Bool) (x : Nat) : List Nat → List Nat
  | [] => [x]
  | y :: ys => if lt x y then x :: y :: ys else y :: insertS lt x ys

/-- Python's stable `sorted` with a key, embedded as a stable insertion
sort: elements are processed left to right and each is placed after all
previously placed elements whose key is not strictly greater. -/
def sortStable (lt : Nat → Nat → Bool) (l : List Nat) : List Nat :=
  l.foldl (fun acc x => insertS lt x acc) []

/-- `Graph.get_node_label`.  (`self.nodes[node]` would raise KeyError
for an unregistered node; every node the pipeline queries is registered
by `_init_nodes`, so the default is never consulted.) -/
def getNodeLabel (g : Graph) (n : Nat) : String := (alookup g.nodes n).getD ""

/-- The score of `Graph.height_groups`: forward height plus height in
the edge-reversed graph, with `dict.get(node, 0)` defaults. -/
def scoreOf (heights revHeights : List (Nat × Nat)) (n : Nat) : Nat :=
  (alookup heights n).getD 0 + (alookup revHeights n).getD 0

/-- `Graph.height_groups`, given the two memo tables: group the
`heights.items()` stream by height, then stable-sort each group by
`(-score, label)`. -/
def heightGroupsFrom (g : Graph) (heights revHeights : List (Nat × Nat)) :
    List (Nat × List Nat) :=
  (groupByKey (heights.map (fun p => (p.2, p.1)))).map
    (fun p => (p.1, sortStable (sortKeyLt (scoreOf heights revHeights) (getNodeLabel g)) p.2))

/-- `Graph.height_groups` as run on a raw input graph (the constructor
normalizes the node dict first). -/
def heightGroupsRun (g0 : Graph) : Except String (List (Nat × List Nat)) := do
  let g := initNodes g0
  let heights ← nodeHeightsRun g
  let revHeights ← nodeHeightsRun (reverseEdges g)
  pure (heightGroupsFrom g heights revHeights)

/-- `Plan` of `_render.py`: nodes defined at a height, and nodes whose
paths are passing by that height. -/
structure Plan where
  defined : List Nat
  passing_by : List Nat
  deriving DecidableEq

/-- `Cursor` of `_render.py`: origin node, current column, target column. -/
structure Cursor where
  node : Nat
  current : Int
  target : Int
  deriving DecidableEq

/-- `Cursor.add`. -/
def Cursor.add (c : Cursor) (delta : Int) : Cursor :=
  { c with current := c.current + delta }

/-- `Cursors` of `_render.py`. -/
structure Cursors where
  nodes : List Cursor
  paths : List Cursor
  deriving DecidableEq

/-- `Step` of `_render.py`: a cursor plus the symbols (position, symbol)
it has emitted for the current row. -/
structure Step where
  cursor : Cursor
  symbols : List (Int × Symbol)
  deriving DecidableEq

/-- `Step.move_cursor`. -/
def Step.move_cursor (s : Step) (delta : Int) : Step :=
  { s with cursor := s.cursor.add delta }

/-- `Step.add_symbols`. -/
def Step.add_symbols (s : Step) (new : List (Int × Symbol)) : Step :=
  { s with symbols := s.symbols ++ new }

/-- `Step.has_position`. -/
def Step.has_position (s : Step) (pos : Int) : Bool :=
  s.symbols.any (fun p => p.1 = pos)

/-- Boolean list inclusion, used to express Python set equality of the
symbol lists. -/
def listSubB {α : Type} [DecidableEq α] (a b : List α) : Bool :=
  a.all (fun x => x ∈ b)

/-- `Step.__eq__`: cursors equal and symbol lists equal AS SETS. -/
def stepEq (s t : Step) : Bool :=
  s.cursor = t.cursor && listSubB s.symbols t.symbols && listSubB t.symbols s.symbols

/-- Python list equality of two step lists (`steps != new_steps`):
same length and elementwise `Step.__eq__`. -/
def stepsEq (a b : List Step) : Bool :=
  a.length = b.length && (a.zip b).all (fun p => stepEq p.1 p.2)

/-- The descending `range(start, stop, -1)` of Python:
`[start, start-1, ..., stop+1]`. -/
def pyRangeDown (start stop : Nat) : List Nat :=
  (List.range' (stop + 1) (start - stop)).reverse

/-- `max(dict)` over the keys of a dict; ValueError on an empty dict. -/
def maxKey {α : Type} (l : List (Nat × α)) : Except String Nat :=
  match l.map (fun p => p.1) with
  | [] => .error "max() arg is an empty sequence"
  | k :: ks => .ok (ks.foldl Nat.max k)

/-- The initial tracking dict of `Renderer._make_plan`
(`Plan(defined=nodes, passing_by=[])` for every height group), as a
keyed lookup. -/
def makePlanInit (hg : List (Nat × List Nat)) : Nat → Option Plan :=
  fun h => (alookup hg h).map (fun ns => { defined := ns, passing_by := [] })

/-- The per-node condition of `Renderer._compute_passing_by`: some
neighbour lies strictly below the given height and is not defined at
the next level.  (`self.graph.edges[node]` and
`self.graph.node_heights[neighbor]` cannot raise here: every node
inspected has outgoing edges and every neighbour has a height; the
defaults are never consulted.) -/
def passesBelow (g : Graph) (heights : List (Nat × Nat)) (h : Nat)
    (nextDefined : List Nat) (node : Nat) : Bool :=
  ((alookup g.edges node).getD []).any
    (fun m => decide ((alookup heights m).getD 0 < h) && decide (m ∉ nextDefined))

/-- `Renderer._compute_passing_by`: append to the next level's
passing_by every current-level node (defined first, then passing-by)
one of whose edges skips the next level. -/
def computePassingBy (g : Graph) (heights : List (Nat × Nat)) (h : Nat)
    (tracking : Nat → Option Plan) : Nat → Option Plan :=
  match tracking h, tracking (h - 1) with
  | some curr, some next =>
    let adds1 := curr.defined.filter (passesBelow g heights h next.defined)
    let adds2 := curr.passing_by.filter (passesBelow g heights h next.defined)
    fun k =>
      if k = h - 1 then
        some { next with passing_by := next.passing_by ++ adds1 ++ adds2 }
      else tracking k
  | _, _ => tracking

/-- `Renderer._make_plan`, with the tracking dict embedded as a keyed
lookup (the source only ever accesses it by key). -/
def makePlanRun (g : Graph) (heights : List (Nat × Nat))
    (hg : List (Nat × List Nat)) : Except String (Nat → Option Plan) := do
  let mx ← maxKey hg
  pure ((pyRangeDown mx 1).foldl
    (fun tr h => computePassingBy g heights h tr) (makePlanInit hg))

/-- Index of the first occurrence of `x` in `l` (the inner linear scans
of `_make_cursor`). -/
def firstIdx (l : List Nat) (x : Nat) : Option Nat :=
  match l with
  | [] => none
  | y :: ys => if y = x then some 0 else (firstIdx ys x).map (fun i => i + 1)

/-- `Renderer._make_cursor`, embedded exactly as written.  Note that the
node-to-passby group offsets the matched index by
`len(next.passing_by)` (the running index `j` starts there in the
source), while the passby-to-passby group offsets it by
`len(next.defined)`. -/
def makeCursor (g : Graph) (curr next : Plan) : Cursors :=
  let node_to_passby := curr.defined.enum.filterMap
    (fun p =>
      (firstIdx next.passing_by p.2).map
        (fun k => Cursor.mk p.2 ((p.1 : Int) * 2) (((next.passing_by.length + k : Nat) : Int) * 2)))
  let passby_to_passby := curr.passing_by.enum.filterMap
    (fun p =>
      (firstIdx next.passing_by p.2).map
        (fun j => Cursor.mk p.2 (((curr.defined.length + p.1 : Nat) : Int) * 2)
          (((next.defined.length + j : Nat) : Int) * 2)))
  let node_to_node := curr.defined.enum.flatMap
    (fun p =>
      ((alookup g.edges p.2).getD []).filterMap
        (fun nb =>
          (firstIdx next.defined nb).map
            (fun j => Cursor.mk p.2 ((p.1 : Int) * 2) ((j : Int) * 2))))
  let passby_to_node := curr.passing_by.enum.flatMap
    (fun p =>
      ((alookup g.edges p.2).getD []).filterMap
        (fun nb =>
          (firstIdx next.defined nb).map
            (fun j => Cursor.mk p.2 (((curr.defined.length + p.1 : Nat) : Int) * 2) ((j : Int) * 2))))
  { nodes := node_to_node ++ node_to_passby,
    paths := passby_to_node ++ passby_to_passby }

/-- The trivial cursors of the bottom level (`height-1 not in planning`
branch of `Renderer._make_cursors`): every node keeps its column;
passing-by indices continue after the defined ones. -/
def trivialCursors (plan : Plan) : Cursors :=
  { nodes := plan.defined.enum.map
      (fun p => Cursor.mk p.2 ((p.1 : Int) * 2) ((p.1 : Int) * 2)),
    paths := plan.passing_by.enum.map
      (fun p => Cursor.mk p.2 (((plan.defined.length + p.1 : Nat) : Int) * 2)
        (((plan.defined.length + p.1 : Nat) : Int) * 2)) }

/-- Error-propagating map over a list (sequential, as Python loops are). -/
def mapME {α β : Type} (f : α → Except String β) : List α → Except String (List β)
  | [] => .ok []
  | a :: as => do
    let b ← f a
    let bs ← mapME f as
    .ok (b :: bs)

/-- `Renderer._make_cursors`: walk heights from the top down; pair each
level with the one below it, or build trivial cursors when there is no
level below.  The result keeps the descending order in which
`_make_canvas` consumes the mapping.  (`planning[height]` would raise
KeyError on a height gap.) -/
def makeCursorsRun (g : Graph) (tracking : Nat → Option Plan) (mx : Nat) :
    Except String (List (Nat × Cursors)) :=
  mapME
    (fun h => do
      match tracking h with
      | none => .error "KeyError"
      | some curr =>
        if h = 0 then .ok (h, trivialCursors curr)
        else
          match tracking (h - 1) with
          | some next => .ok (h, makeCursor g curr next)
          | none => .ok (h, trivialCursors curr))
    (pyRangeDown mx 0 ++ [0])

/-- `_find_step`: the first step owning a symbol at the position. -/
def findStep (steps : List Step) (pos : Int) : Option Step :=
  steps.find? (fun s => s.has_position pos)

/-- The target of an optional step (`step.cursor.target` in Python;
the guards around every use ensure the option is `some`, which is
exactly what the RuntimeError branch asserts). -/
def targetOfOpt (s : Option Step) : Int :=
  match s with
  | some st => st.cursor.target
  | none => 0

/-- One step of the module-level `_move_left` loop body, with Python's
sequential if-chain preserved, including the
`raise RuntimeError('unexpected error')` branch. -/
def moveLeftStep (steps : List Step) (step : Step) : Except String Step :=
  let current := step.cursor.current
  if current ≤ step.cursor.target then .ok step
  else
    let step_curr := findStep steps current
    let step_left := findStep steps (current - 1)
    if step_curr.isNone && step_left.isNone then
      .ok ((step.move_cursor (-2)).add_symbols
        [(current - 1, Symbol.mk .LEFT_MOVE ""), (current, Symbol.mk .LEFT_MOVE "")])
    else if step_curr.isNone && step_left.isSome then
      if targetOfOpt step_left ≠ step.cursor.target then .ok step
      else .ok ((step.move_cursor (-2)).add_symbols [(current, Symbol.mk .LEFT_MOVE "")])
    else if step_curr.isNone then
      .error "unexpected error"
    else if targetOfOpt step_curr ≠ step.cursor.target then .ok step
    else .ok (step.move_cursor (-2))

/-- The module-level `_move_left`: one pass over the step list; the
position queries run against the INPUT list throughout. -/
def moveLeftOnce (steps : List Step) : Except String (List Step) :=
  mapME (moveLeftStep steps) steps

/-- `Renderer._move_left`: iterate `_move_left` until the step list
stops changing (Python list equality via `Step.__eq__`). -/
def moveLeftIter : Nat → List Step → Except String (List Step)
  | 0, _ => .error "maximum recursion depth exceeded"
  | fuel + 1, steps => do
    let ns ← moveLeftOnce steps
    if stepsEq steps ns then .ok ns else moveLeftIter fuel ns

/-- Potential of a step: how far its cursor still has to move left. -/
def stepPotential (s : Step) : Nat := (s.cursor.current - s.cursor.target).toNat

/-- Sum of the step potentials; each changing `_move_left` pass strictly
decreases it, so this many iterations always reach the fixed point. -/
def stepsPotential (l : List Step) : Nat := (l.map stepPotential).sum

/-- `Renderer._move_left` with its provably sufficient fuel. -/
def moveLeft (steps : List Step) : Except String (List Step) :=
  moveLeftIter (stepsPotential steps + 1) steps

/-- The per-cursor body of `Renderer._move_cursors`: advance the cursor
one row toward its target, emitting the corresponding diagonal or hold. -/
def moveCursorStep (c : Cursor) : Step :=
  if c.current < c.target then
    Step.mk (c.add 2) [(c.current + 1, Symbol.mk .RIGHT "")]
  else if c.current > c.target then
    Step.mk (c.add (-2)) [(c.current - 1, Symbol.mk .LEFT "")]
  else Step.mk c [(c.current, Symbol.mk .HOLD "")]

/-- `Renderer._move_cursors`: one proposed single-row advance per cursor. -/
def moveCursors (cursors : List Cursor) : List Step :=
  cursors.map moveCursorStep

/-- `Renderer._make_symbols`: repeat move-and-relax rounds until every
cursor sits on its target (and at least one row was produced).  Fuel
bounds the recursion; `makeSymbolsTop` below supplies a bound that is
provably sufficient for the even-column cursors the pipeline produces. -/
def makeSymbolsAux : Nat → List Cursor → List (List (Int × Symbol)) →
    Except String (List (List (Int × Symbol)))
  | 0, cursors, canvas =>
    if cursors.all (fun c => c.current = c.target) && !canvas.isEmpty then .ok canvas
    else .error "maximum recursion depth exceeded"
  | f + 1, cursors, canvas =>
    if cursors.all (fun c => c.current = c.target) && !canvas.isEmpty then .ok canvas
    else do
      let steps ← moveLeft (moveCursors cursors)
      let cursors' := steps.map (fun s => s.cursor)
      let newSymbols := steps.flatMap (fun s => s.symbols)
      makeSymbolsAux f cursors' (canvas ++ [newSymbols])

/-- Total distance of a cursor list from its targets. -/
def cursorsPotential (l : List Cursor) : Nat :=
  (l.map (fun c => (c.current - c.target).natAbs)).sum

/-- `Renderer._make_symbols(cursors, [])` as called by `_draw_paths`. -/
def makeSymbolsTop (cursors : List Cursor) : Except String (List (List (Int × Symbol))) :=
  makeSymbolsAux (cursorsPotential cursors + 2) cursors []

/-- `_resolve_conflict` of `_render.py`, exactly as written. -/
def resolveConflict (a b : Symbol) : Symbol :=
  if a.is_node then a
  else if b.is_node then b
  else if b.is_space then a
  else if a.is_space then b
  else if a.is_left && b.is_right then Symbol.mk .CROSS ""
  else if a.is_right && b.is_left then Symbol.mk .CROSS ""
  else if a.is_cross && (b.is_left || b.is_right) then Symbol.mk .CROSS ""
  else if b.is_cross && (a.is_left || a.is_right) then Symbol.mk .CROSS ""
  else a

/-- `functools.reduce(_resolve_conflict, group)` (groups produced by
`group_by_key` are never empty; the default is unreachable). -/
def reduceGroup : List Symbol → Symbol
  | [] => Symbol.mk .SPACE ""
  | s :: rest => rest.foldl resolveConflict s

/-- `_merge_symbols`: group a sparse row by column and reduce each
group with `_resolve_conflict`. -/
def mergeSymbols (row : List (Int × Symbol)) : List (Int × Symbol) :=
  (groupByKey row).map (fun p => (p.1, reduceGroup p.2))

/-- Densify one merged sparse row over `range(0, max(keys)+1)`
(ValueError if the row mapping is empty). -/
def densifyRow (m : List (Int × Symbol)) : Except String (List Symbol) :=
  match m with
  | [] => .error "max() arg is an empty sequence"
  | e :: es =>
    let mx := es.foldl (fun a p => max a p.1) e.1
    .ok ((List.range (mx + 1).toNat).map
      (fun col => (lookupLast m (Int.ofNat col)).getD (Symbol.mk .SPACE "")))

/-- `Renderer._draw_paths`. -/
def drawPaths (cursors : List Cursor) : Except String (List (List Symbol)) := do
  let symbols ← makeSymbolsTop cursors
  mapME (fun row => densifyRow (mergeSymbols row)) symbols

/-- `Renderer._draw_cursors`: the node row.  The node symbols are
written into the dict FIRST and the hold symbols afterwards, so a hold
overwrites a node at a shared column. -/
def drawCursors (g : Graph) (cs : Cursors) : Except String (List Symbol) :=
  let nodesL : List (Int × Symbol) :=
    cs.nodes.map (fun c => (c.current, Symbol.mk .NODE (getNodeLabel g c.node)))
  let pathsL : List (Int × Symbol) :=
    cs.paths.map (fun c => (c.current, Symbol.mk .HOLD ""))
  let entries := nodesL ++ pathsL
  match entries with
  | [] => .error "max() arg is an empty sequence"
  | e :: es =>
    let mx := es.foldl (fun a p => max a p.1) e.1
    .ok ((List.range (mx + 1).toNat).map
      (fun col => (lookupLast entries (Int.ofNat col)).getD (Symbol.mk .SPACE "")))

/-- `Renderer._make_canvas`: per level, the node row followed by the
path rows; the vestigial trailing `[HOLD]` row is popped
(IndexError on an empty canvas). -/
def makeCanvas (g : Graph) (cursorsList : List (Nat × Cursors)) :
    Except String (List (List Symbol)) := do
  let rows ← cursorsList.foldlM
    (fun acc p => do
      let nodeRow ← drawCursors g p.2
      let pathRows ← drawPaths (p.2.nodes ++ p.2.paths)
      pure (acc ++ [nodeRow] ++ pathRows))
    []
  match rows with
  | [] => .error "pop from empty list"
  | _ => pure rows.dropLast

/-- `Spacing` of `_printer.py`. -/
inductive Spacing where
  | FIXED
  | JUSTIFIED
  | AUTO_JUSTIFIED
  deriving DecidableEq

/-- `PrinterOptions` of `_printer.py`.  The grouping fields correspond
to `group_labels_by_prefix`, `group_labels_by_suffix`,
`min_group_size`, `prefix_min_length`, `suffix_min_length`. -/
structure PrinterOptions where
  spacing : Spacing := .AUTO_JUSTIFIED
  spaces : Nat := 4
  prefixGrouping : Bool := true
  suffixGrouping : Bool := true
  minGroupSize : Nat := 2
  prefixMinLength : Nat := 4
  suffixMinLength : Nat := 4
  deriving DecidableEq

/-- `longest_common_prefix` on two char lists (one pass of the inner
loop of `_string.py`). -/
def lcp2 : List Char → List Char → List Char
  | c :: cs, o :: os => if c = o then c :: lcp2 cs os else []
  | _, _ => []

/-- `longest_common_prefix` of `_string.py` over char lists. -/
def lcpList : List (List Char) → List Char
  | [] => []
  | first :: rest => rest.foldl lcp2 first

/-- `longest_common_prefix` of `_string.py`. -/
def lcPrefixOf (items : List String) : String :=
  String.mk (lcpList (items.map (fun s => s.data)))

/-- `longest_common_suffix` of `_string.py`: reverse, take the prefix,
reverse back. -/
def lcSuffixOf (items : List String) : String :=
  String.mk ((lcpList (items.map (fun s => s.data.reverse))).reverse)

/-- A run of blanks. -/
def spacesStr (n : Nat) : String := String.mk (List.replicate n ' ')

/-- `_RowPrinter._maybe_group_by_prefix`.  `origCount` is
`len(self.labels)`, the number of labels of the row. -/
def maybeGroupByPrefixF (opts : PrinterOptions) (origCount : Nat)
    (labels : List String) : String × List String :=
  if !(opts.prefixGrouping && decide (opts.minGroupSize ≤ origCount)) then ("", labels)
  else
    let pre := lcPrefixOf labels
    if pre.length < opts.prefixMinLength then ("", labels)
    else (pre, labels.map (fun l => l.drop pre.length))

/-- `_RowPrinter._maybe_group_by_suffix`. -/
def maybeGroupBySuffixF (opts : PrinterOptions) (origCount : Nat)
    (labels : List String) : List String × String :=
  if !(opts.suffixGrouping && decide (opts.minGroupSize ≤ origCount)) then (labels, "")
  else
    let suf := lcSuffixOf labels
    if suf.length < opts.suffixMinLength then (labels, "")
    else (labels.map (fun l => l.take (l.length - suf.length)), suf)

/-- The literal `{` character of the grouped-label format string. -/
def lbrace : String := "\x7b"

/-- The literal `}` character of the grouped-label format string. -/
def rbrace : String := "\x7d"

/-- `_RowPrinter._print_labels`: group by prefix, then by suffix on the
stripped labels; empty labels print as `?`; braces appear only when a
prefix or suffix was stripped. -/
def printLabelsPart (opts : PrinterOptions) (labels : List String) : String :=
  let pr := maybeGroupByPrefixF opts labels.length labels
  let su := maybeGroupBySuffixF opts labels.length pr.2
  let fmt := String.intercalate "," (su.1.map (fun name => if name = "" then "?" else name))
  if pr.1 ≠ "" || su.2 ≠ "" then pr.1 ++ lbrace ++ fmt ++ rbrace ++ su.2
  else fmt

/-- The three spacing policies of `_RowPrinter`; `used` is the number of
characters already emitted (the row width). -/
def spacingStr (opts : PrinterOptions) (maxSize used : Nat) : String :=
  match opts.spacing with
  | .FIXED => spacesStr opts.spaces
  | .JUSTIFIED => if used = 0 then "" else spacesStr (max 1 (opts.spaces - used))
  | .AUTO_JUSTIFIED =>
    if used = 0 then "" else spacesStr (maxSize + opts.spaces - used)

/-- The labels collected by `_RowPrinter._print_symbols` (one per NODE
symbol, in row order). -/
def rowLabels (row : List Symbol) : List String :=
  (row.filter (fun s => s.is_node)).map (fun s => s.label)

/-- `_RowPrinter.to_string`: glyphs, then (if some node has a non-empty
label) spacing and the label part. -/
def printRow (opts : PrinterOptions) (maxSize : Nat) (row : List Symbol) : String :=
  let glyphs := String.mk (row.map Symbol.toChar)
  let labels := rowLabels row
  if !labels.isEmpty && labels.any (fun l => 0 < l.length) then
    glyphs ++ spacingStr opts maxSize row.length ++ printLabelsPart opts labels
  else glyphs

/-- `Printer.to_string`: rows joined by newlines with a trailing
newline; `max()` over the row lengths raises on an empty canvas. -/
def printerToString (opts : PrinterOptions) (renderedGraph : List (List Symbol)) :
    Except String String :=
  match renderedGraph with
  | [] => .error "max() arg is an empty sequence"
  | r :: rs =>
    let maxSize := rs.foldl (fun a row => max a row.length) r.length
    .ok (String.intercalate "\n" (renderedGraph.map (printRow opts maxSize)) ++ "\n")

/-- `Renderer(graph, options).to_string()`: the end-to-end pipeline. -/
def render (g0 : Graph) (opts : PrinterOptions) : Except String String := do
  let g := initNodes g0
  let heights ← nodeHeightsRun g
  let revHeights ← nodeHeightsRun (reverseEdges g)
  let hg := heightGroupsFrom g heights revHeights
  let tracking ← makePlanRun g heights hg
  let mx ← maxKey hg
  let cursorsList ← makeCursorsRun g tracking mx
  let canvas ← makeCanvas g cursorsList
  printerToString opts canvas

/-! Concrete inputs used by the claim theorems. -/

/-- The two-leaves-sharing-a-root scenario of the spec. -/
def c1graph : Graph :=
  { nodes := [(0, "L0"), (1, "L1"), (2, "L2")], edges := [(0, [2]), (1, [2])] }

/-- A graph whose `(labels, edges)` mappings coincide with `c6graphB`
as sets of key-value pairs: two height-1 nodes share the label X. -/
def c6graphA : Graph :=
  { nodes := [(0, "X"), (1, "X"), (2, "C"), (3, "D")], edges := [(0, [2]), (1, [3])] }

/-- The same mappings as `c6graphA`, inserted in a different order. -/
def c6graphB : Graph :=
  { nodes := [(1, "X"), (0, "X"), (2, "C"), (3, "D")], edges := [(1, [3]), (0, [2])] }

/-- C1: end-to-end, the two-leaves-sharing-a-root input with default
printer options renders to exactly the spec's three-line string, with
auto-justified labels four columns past the widest row and a trailing
newline. -/
theorem c1_render_two_leaves :
    render c1graph {} = Except.ok "o o    L0,L1\n|/\no      L2\n" := by
  rfl

/-- C4 (counter-evaluation): on a graph whose edges map node 0 to the
empty set, the height computation raises ValueError (`max()` of an
empty sequence) instead of returning height 0. -/
theorem c4_empty_edge_set_errors :
    nodeHeightsRun (initNodes { nodes := [(0, "")], edges := [(0, [])] }) =
      Except.error "max() arg is an empty sequence" := by
  rfl

/-- C5 (counter-evaluation): rendering the empty graph raises ValueError
(`max()` over the keys of the empty height-group dict in `_make_plan`)
instead of returning an empty string or a single newline. -/
theorem c5_empty_graph_errors :
    render { nodes := [], edges := [] } {} =
      Except.error "max() arg is an empty sequence" := by
  rfl

/-- C3 (counter-evaluation): with `next.defined = [20, 21]` and
`next.passing_by = [10]`, the node-to-passby cursor built for the
defined node 10 has target column `(len(next.passing_by) + 0) * 2 = 2`,
not `(len(next.defined) + 0) * 2 = 4` as the claim states. -/
theorem c3_node_to_passby_offset :
    (makeCursor { nodes := [], edges := [] }
        { defined := [10], passing_by := [] }
        { defined := [20, 21], passing_by := [10] }).nodes = [Cursor.mk 10 0 2] ∧
      ((2 : Int) * (([20, 21] : List Nat).length + 0) = 4) := by
  exact ⟨rfl, rfl⟩

/-- C9: with default options, a row whose node labels are exactly
foo-a-bar and foo-b-bar prints as the glyphs followed by the grouped
label part: the common prefix of length 4 is stripped and rendered
before the braces, the common suffix of length 4 of the stripped labels
after them. -/
theorem c9_prefix_suffix_grouping :
    printRow {} 3
        [Symbol.mk .NODE "foo-a-bar", Symbol.mk .SPACE "", Symbol.mk .NODE "foo-b-bar"] =
      "o o    foo-\x7ba,b\x7d-bar" := by
  rfl

/-- C2 (counterexample): in `_draw_cursors` the hold symbols are merged
into the row dict AFTER the node symbols, so at a column holding both a
node cursor and a path cursor the emitted symbol is HOLD, not NODE. -/
theorem c2_hold_wins_counterexample :
    drawCursors { nodes := [(0, "A"), (1, "")], edges := [] }
        { nodes := [Cursor.mk 0 0 0], paths := [Cursor.mk 1 0 0] } =
      Except.ok [Symbol.mk .HOLD ""] ∧
      Symbol.mk .HOLD "" ≠ Symbol.mk .NODE "A" := by
  exact ⟨rfl, by decide⟩

/-- Computation lemma for `Except.isOk` on a success value. -/
theorem isOk_ok {α : Type} (x : α) : (Except.ok x : Except String α).isOk = true := rfl

/-- Computation lemma for `Except.isOk` on an error value. -/
theorem isOk_error {α : Type} (e : String) :
    (Except.error e : Except String α).isOk = false := rfl

/-- An `Except` value that is ok carries a success value. -/
theorem isOk_iff_exists {α : Type} {e : Except String α} :
    e.isOk = true ↔ ∃ x, e = .ok x := by
  cases e with
  | error err => simp [isOk_error]
  | ok x => simp [isOk_ok]

/-- The single-step body of the `_move_left` pass never reaches its
RuntimeError branch: the two preceding cases exhaust the situation
where no step occupies the cursor's current column. -/
theorem moveLeftStep_isOk (steps : List Step) (step : Step) :
    (moveLeftStep steps step).isOk = true := by
  unfold moveLeftStep
  by_cases h : step.cursor.current ≤ step.cursor.target
  · simp only [h, if_true, isOk_ok]
  · simp only [h, if_false]
    cases hc : findStep steps step.cursor.current <;>
      cases hl : findStep steps (step.cursor.current - 1) <;>
        split_ifs <;> simp_all [isOk_ok]

/-- `mapME` succeeds when every element's computation succeeds. -/
theorem mapME_isOk {α β : Type} (f : α → Except String β) (l : List α)
    (h : ∀ a ∈ l, (f a).isOk = true) : (mapME f l).isOk = true := by
  induction l with
  | nil => rfl
  | cons a as ih =>
    obtain ⟨b, hb⟩ := isOk_iff_exists.mp (h a (List.mem_cons_self a as))
    obtain ⟨bs, hbs⟩ := isOk_iff_exists.mp (ih (fun x hx => h x (List.mem_cons_of_mem a hx)))
    simp only [mapME, hb, hbs]
    rfl

/-- C10: the `raise RuntimeError('unexpected error')` branch of
`_move_left` is unreachable, and hence a single relaxation pass over
any list of steps is total and never raises. -/
theorem c10_move_left_never_raises :
    (∀ (steps : List Step) (step : Step), (moveLeftStep steps step).isOk = true) ∧
      (∀ steps : List Step, (moveLeftOnce steps).isOk = true) :=
  ⟨moveLeftStep_isOk, fun steps =>
    mapME_isOk (moveLeftStep steps) steps (fun s _ => moveLeftStep_isOk steps s)⟩

/-- C8: the conflict-merge reduction satisfies the spec's priority
lattice symmetrically in its arguments: NODE dominates, SPACE loses to
any non-space symbol, LEFT with RIGHT gives CROSS in either order, and
CROSS with a diagonal gives CROSS in either order. -/
theorem c8_resolve_conflict_lattice (a b : Symbol) :
    (a.is_node = true →
      (resolveConflict a b).is_node = true ∧ (resolveConflict b a).is_node = true) ∧
    (a.is_space = true → b.is_space = false →
      resolveConflict a b = b ∧ resolveConflict b a = b) ∧
    (a.is_left = true → b.is_right = true →
      (resolveConflict a b).is_cross = true ∧ (resolveConflict b a).is_cross = true) ∧
    (a.is_cross = true → (b.is_left = true ∨ b.is_right = true) →
      (resolveConflict a b).is_cross = true ∧ (resolveConflict b a).is_cross = true) := by
  obtain ⟨ta, la⟩ := a
  obtain ⟨tb, lb⟩ := b
  cases ta <;> cases tb <;>
    simp [resolveConflict, Symbol.is_node, Symbol.is_space, Symbol.is_left, Symbol.is_right,
      Symbol.is_cross]

/-- Witness for C8 at concrete symbols, one instance per hypothesis
group of the lattice theorem. -/
theorem c8_resolve_conflict_lattice_witness :
    (resolveConflict (Symbol.mk .NODE "n") (Symbol.mk .HOLD "")).is_node = true ∧
      resolveConflict (Symbol.mk .SPACE "") (Symbol.mk .HOLD "") = Symbol.mk .HOLD "" ∧
      (resolveConflict (Symbol.mk .LEFT "") (Symbol.mk .RIGHT "")).is_cross = true ∧
      (resolveConflict (Symbol.mk .CROSS "") (Symbol.mk .LEFT "")).is_cross = true :=
  ⟨((c8_resolve_conflict_lattice (Symbol.mk .NODE "n") (Symbol.mk .HOLD "")).1 rfl).1,
    ((c8_resolve_conflict_lattice (Symbol.mk .SPACE "") (Symbol.mk .HOLD "")).2.1 rfl rfl).1,
    ((c8_resolve_conflict_lattice (Symbol.mk .LEFT "") (Symbol.mk .RIGHT "")).2.2.1 rfl rfl).1,
    ((c8_resolve_conflict_lattice (Symbol.mk .CROSS "") (Symbol.mk .LEFT "")).2.2.2 rfl
      (Or.inl rfl)).1⟩

/-- C6 (counterexample): `c6graphA` and `c6graphB` are equal as sets of
key-value pairs (both mappings are permutations of each other, with
identical neighbour sets per node), yet they render to different
strings: the two sort-key-tied nodes labelled X keep their insertion
order, swapping their columns and changing the path rows. -/
theorem c6_counterexample :
    c6graphA.nodes.Perm c6graphB.nodes ∧ c6graphA.edges.Perm c6graphB.edges ∧
      render c6graphA {} ≠ render c6graphB {} := by
  refine ⟨by decide, by decide, ?_⟩
  have h1 : render c6graphA {} = Except.ok "o o    X,X\n| |\no o    C,D\n" := rfl
  have h2 : render c6graphB {} = Except.ok "o o    X,X\n x\no o    C,D\n" := rfl
  rw [h1, h2]
  intro h
  exact (by decide : ("o o    X,X\n| |\no o    C,D\n" : String) ≠
    "o o    X,X\n x\no o    C,D\n") (Except.ok.inj h)

theorem foldl_max_init (l : List (Int × Symbol)) (a : Int) :
    a ≤ l.foldl (fun x p => max x p.1) a := by
  induction l generalizing a with
  | nil => exact le_refl a
  | cons p ps ih => exact le_trans (le_max_left a p.1) (ih (max a p.1))

theorem foldl_max_mem (l : List (Int × Symbol)) (a : Int) (p : Int × Symbol) (hp : p ∈ l) :
    p.1 ≤ l.foldl (fun x q => max x q.1) a := by
  induction l generalizing a with
  | nil => cases hp
  | cons q qs ih =>
    cases hp with
    | head => exact le_trans (le_max_right a p.1) (foldl_max_init qs (max a p.1))
    | tail _ h => exact ih (max a q.1) h

theorem lookupLast_foldl_acc {α : Type} (l : List (Int × α)) (k : Int) (acc : Option α) :
    l.foldl (fun a p => if p.1 = k then some p.2 else a) acc =
      match lookupLast l k with
      | some v => some v
      | none => acc := by
  induction l generalizing acc with
  | nil => simp [lookupLast]
  | cons p ps ih =>
    show ps.foldl _ (if p.1 = k then some p.2 else acc) = _
    rw [ih]
    have h2 : lookupLast (p :: ps) k =
        match lookupLast ps k with
        | some v => some v
        | none => (if p.1 = k then some p.2 else none) := by
      show ps.foldl _ (if p.1 = k then some p.2 else none) = _
      rw [ih]
    rw [h2]
    cases lookupLast ps k <;> by_cases hpk : p.1 = k <;> simp [hpk]

theorem lookupLast_append {α : Type} (l1 l2 : List (Int × α)) (k : Int) :
    lookupLast (l1 ++ l2) k =
      match lookupLast l2 k with
      | some v => some v
      | none => lookupLast l1 k := by
  show (l1 ++ l2).foldl _ none = _
  rw [List.foldl_append]
  exact lookupLast_foldl_acc l2 k (lookupLast l1 k)

theorem lookupLast_cons {α : Type} (p : Int × α) (ps : List (Int × α)) (k : Int) :
    lookupLast (p :: ps) k =
      match lookupLast ps k with
      | some v => some v
      | none => if p.1 = k then some p.2 else none := by
  show ps.foldl _ (if p.1 = k then some p.2 else none) = _
  rw [lookupLast_foldl_acc]

theorem lookupLast_eq_some {α : Type} {l : List (Int × α)} {k : Int} {v : α}
    (h : lookupLast l k = some v) : ∃ p ∈ l, p.1 = k ∧ p.2 = v := by
  induction l with
  | nil => simp [lookupLast] at h
  | cons p ps ih =>
    rw [lookupLast_cons] at h
    cases hl : lookupLast ps k with
    | some w =>
      rw [hl] at h
      simp only [] at h
      have hwv : w = v := by simpa using h
      subst hwv
      obtain ⟨q, hq, hk, hv⟩ := ih hl
      exact ⟨q, List.mem_cons_of_mem p hq, hk, hv⟩
    | none =>
      rw [hl] at h
      by_cases hpk : p.1 = k
      · refine ⟨p, List.mem_cons_self p ps, hpk, ?_⟩
        simp [hpk] at h
        exact h
      · simp [hpk] at h

theorem lookupLast_const {α : Type} (l : List (Int × α)) (k : Int) (v0 : α)
    (hall : ∀ p ∈ l, p.2 = v0) (hmem : ∃ p ∈ l, p.1 = k) :
    lookupLast l k = some v0 := by
  cases hl : lookupLast l k with
  | some v =>
    obtain ⟨p, hp, _, hv⟩ := lookupLast_eq_some hl
    rw [← hv, hall p hp]
  | none =>
    exfalso
    obtain ⟨p, hp, hk⟩ := hmem
    -- show a matching entry forces a some result
    induction l with
    | nil => cases hp
    | cons q qs ih =>
      rw [lookupLast_cons] at hl
      cases hq : lookupLast qs k with
      | some w => rw [hq] at hl; cases hl
      | none =>
        rw [hq] at hl
        cases hp with
        | head => simp [hk] at hl
        | tail _ hmem2 => exact ih (fun r hr => hall r (List.mem_cons_of_mem q hr)) hq hmem2

theorem c2_amended_hold_wins (g : Graph) (cs : Cursors) (c : Int) (hc : 0 ≤ c)
    (hp : ∃ p ∈ cs.paths, p.current = c) :
    ∃ row, drawCursors g cs = Except.ok row ∧
      row.get? c.toNat = some (Symbol.mk .HOLD "") := by
  unfold drawCursors
  obtain ⟨p, hpmem, hpc⟩ := hp
  have hmemP : ((c, Symbol.mk .HOLD "") : Int × Symbol) ∈
      cs.paths.map (fun cur => (cur.current, Symbol.mk .HOLD "")) :=
    List.mem_map.mpr ⟨p, hpmem, by rw [hpc]⟩
  have hmemE : ((c, Symbol.mk .HOLD "") : Int × Symbol) ∈
      cs.nodes.map (fun cur => (cur.current, Symbol.mk .NODE (getNodeLabel g cur.node))) ++
        cs.paths.map (fun cur => (cur.current, Symbol.mk .HOLD "")) :=
    List.mem_append_right _ hmemP
  have hlookP : lookupLast (cs.paths.map (fun cur => (cur.current, Symbol.mk .HOLD ""))) c =
      some (Symbol.mk .HOLD "") := by
    apply lookupLast_const
    · intro q hq
      obtain ⟨cur, _, hcur⟩ := List.mem_map.mp hq
      rw [← hcur]
    · exact ⟨(c, Symbol.mk .HOLD ""), hmemP, rfl⟩
  have hlook : lookupLast
      (cs.nodes.map (fun cur => (cur.current, Symbol.mk .NODE (getNodeLabel g cur.node))) ++
        cs.paths.map (fun cur => (cur.current, Symbol.mk .HOLD ""))) c =
      some (Symbol.mk .HOLD "") := by
    rw [lookupLast_append, hlookP]
  cases hEnt : cs.nodes.map (fun cur => (cur.current, Symbol.mk .NODE (getNodeLabel g cur.node))) ++
      cs.paths.map (fun cur => (cur.current, Symbol.mk .HOLD "")) with
  | nil => rw [hEnt] at hmemE; cases hmemE
  | cons e es =>
    simp only [hEnt]
    refine ⟨_, rfl, ?_⟩
    have hcmx : c ≤ es.foldl (fun a q => max a q.1) e.1 := by
      rw [hEnt] at hmemE
      cases hmemE with
      | head => exact foldl_max_init es _
      | tail _ h => exact foldl_max_mem es e.1 _ h
    have hlt : c.toNat < ((es.foldl (fun a q => max a q.1) e.1) + 1).toNat := by omega
    rw [List.get?_map, List.get?_range hlt]
    have hcast : Int.ofNat c.toNat = c := Int.toNat_of_nonneg hc
    rw [hEnt] at hlook
    simp only [Option.map_some', hcast, hlook]
    rfl

/-- Witness for the amended C2 statement at a concrete graph and cursor
set: the path cursor at column 0 shares its column with a node cursor,
and the emitted symbol there is HOLD. -/
theorem c2_amended_hold_wins_witness :
    ((0 : Int) ≤ 0) ∧
      (∃ p ∈ ({ nodes := [Cursor.mk 0 0 0], paths := [Cursor.mk 1 0 0] } : Cursors).paths,
        p.current = 0) ∧
      ∃ row,
        drawCursors { nodes := [(0, "A"), (1, "")], edges := [] }
            { nodes := [Cursor.mk 0 0 0], paths := [Cursor.mk 1 0 0] } = Except.ok row ∧
          row.get? (0 : Int).toNat = some (Symbol.mk .HOLD "") :=
  ⟨le_refl 0, by decide,
    c2_amended_hold_wins { nodes := [(0, "A"), (1, "")], edges := [] }
      { nodes := [Cursor.mk 0 0 0], paths := [Cursor.mk 1 0 0] } 0 (le_refl 0) (by decide)⟩

/-- Step equality (Python `Step.__eq__`) is reflexive. -/
theorem stepEq_refl (s : Step) : stepEq s s = true := by
  simp [stepEq, listSubB, List.all_eq_true]

/-- Step-list equality is reflexive. -/
theorem stepsEq_refl (l : List Step) : stepsEq l l = true := by
  simp [stepsEq, List.all_eq_true]
  intro a b hab
  have : a = b := by
    induction l with
    | nil => cases hab
    | cons x xs ih =>
      cases hab with
      | head => rfl
      | tail _ h => exact ih h
  rw [this]
  exact stepEq_refl b

/-- What one `_move_left` pass can do to a single step: leave it
unchanged, or (when it must still move left) move its cursor two
columns left. -/
def StepRes (s t : Step) : Prop :=
  t = s ∨ (s.cursor.target < s.cursor.current ∧
    t.cursor = s.cursor.add (-2))

/-- Every `_move_left` step body succeeds with a `StepRes`-related step. -/
theorem moveLeftStep_spec (steps : List Step) (s : Step) :
    ∃ t, moveLeftStep steps s = .ok t ∧ StepRes s t := by
  unfold moveLeftStep
  by_cases h : s.cursor.current ≤ s.cursor.target
  · exact ⟨s, by simp [h], Or.inl rfl⟩
  · have hlt : s.cursor.target < s.cursor.current := lt_of_not_le h
    simp only [h, if_false]
    cases hc : findStep steps s.cursor.current <;>
      cases hl : findStep steps (s.cursor.current - 1) <;>
        split_ifs <;>
          first
            | exact ⟨s, rfl, Or.inl rfl⟩
            | exact ⟨_, rfl, Or.inr ⟨hlt, rfl⟩⟩
            | simp_all

/-- Lifting elementwise success to `mapME`. -/
theorem mapME_forall₂ {α β : Type} (f : α → Except String β) (R : α → β → Prop) (l : List α)
    (h : ∀ a ∈ l, ∃ b, f a = .ok b ∧ R a b) :
    ∃ bs, mapME f l = .ok bs ∧ List.Forall₂ R l bs := by
  induction l with
  | nil => exact ⟨[], rfl, List.Forall₂.nil⟩
  | cons a as ih =>
    obtain ⟨b, hb, hR⟩ := h a (List.mem_cons_self a as)
    obtain ⟨bs, hbs, hRs⟩ := ih (fun x hx => h x (List.mem_cons_of_mem a hx))
    refine ⟨b :: bs, ?_, List.Forall₂.cons hR hRs⟩
    simp only [mapME, hb, hbs]
    rfl

/-- One `_move_left` pass succeeds and relates steps elementwise. -/
theorem moveLeftOnce_spec (steps : List Step) :
    ∃ ts, moveLeftOnce steps = .ok ts ∧ List.Forall₂ StepRes steps ts :=
  mapME_forall₂ (moveLeftStep steps) StepRes steps
    (fun s _ => moveLeftStep_spec steps s)

/-- The step potential never grows along `StepRes`. -/
theorem stepRes_pot_le {s t : Step} (h : StepRes s t) : stepPotential t ≤ stepPotential s := by
  cases h with
  | inl he => rw [he]
  | inr hm =>
    obtain ⟨hlt, hcur⟩ := hm
    simp only [stepPotential, hcur, Cursor.add]
    omega

/-- A changed step strictly decreases the step potential. -/
theorem stepRes_pot_lt {s t : Step} (h : StepRes s t) (hne : stepEq s t = false) :
    stepPotential t < stepPotential s := by
  cases h with
  | inl he => rw [he] at hne; rw [stepEq_refl] at hne; cases hne
  | inr hm =>
    obtain ⟨hlt, hcur⟩ := hm
    simp only [stepPotential, hcur, Cursor.add]
    omega

/-- Cons unfolding of Python list equality of steps. -/
theorem stepsEq_cons (a b : Step) (as bs : List Step) :
    stepsEq (a :: as) (b :: bs) = (stepEq a b && stepsEq as bs) := by
  simp [stepsEq, List.all_cons, Nat.succ_inj']
  cases h : decide (as.length = bs.length) <;> simp_all

/-- One relaxation pass never increases the summed potential. -/
theorem forall₂_pot_le {ss ts : List Step} (h : List.Forall₂ StepRes ss ts) :
    stepsPotential ts ≤ stepsPotential ss := by
  induction h with
  | nil => exact le_refl 0
  | cons hR hRs ih =>
    simp only [stepsPotential, List.map_cons, List.sum_cons] at *
    exact Nat.add_le_add (stepRes_pot_le hR) ih

/-- A pass that changes the step list strictly decreases the summed
potential; this is the termination argument of the slide-left loop. -/
theorem forall₂_pot_lt {ss ts : List Step} (h : List.Forall₂ StepRes ss ts)
    (hne : stepsEq ss ts = false) : stepsPotential ts < stepsPotential ss := by
  induction h with
  | nil => rw [stepsEq_refl] at hne; cases hne
  | @cons a b as bs hR hRs ih =>
    rw [stepsEq_cons] at hne
    simp only [stepsPotential, List.map_cons, List.sum_cons]
    cases hab : stepEq a b with
    | false =>
      exact Nat.add_lt_add_of_lt_of_le (stepRes_pot_lt hR hab)
        (forall₂_pot_le hRs)
    | true =>
      rw [hab, Bool.true_and] at hne
      exact Nat.add_lt_add_of_le_of_lt (stepRes_pot_le hR) (ih hne)

/-- Computation rule for the Except bind on a success value. -/
theorem bind_ok {α β : Type} (x : α) (f : α → Except String β) :
    (Except.ok x : Except String α) >>= f = f x := rfl

/-- Elementwise reflexive-transitive chains compose. -/
theorem forall₂_rtg_comp {α : Type} {R : α → α → Prop} {l1 l2 l3 : List α}
    (h1 : List.Forall₂ (Relation.ReflTransGen R) l1 l2)
    (h2 : List.Forall₂ (Relation.ReflTransGen R) l2 l3) :
    List.Forall₂ (Relation.ReflTransGen R) l1 l3 := by
  induction h1 generalizing l3 with
  | nil => cases h2; exact List.Forall₂.nil
  | cons hab htail ih =>
    cases h2 with
    | cons hbc htail2 => exact List.Forall₂.cons (hab.trans hbc) (ih htail2)

/-- The `Renderer._move_left` while-loop reaches its fixed point within
`stepsPotential + 1` passes, relating input and output steps by chains
of single-pass moves. -/
theorem moveLeftIter_spec (fuel : Nat) :
    ∀ ss : List Step, stepsPotential ss < fuel →
      ∃ ts, moveLeftIter fuel ss = .ok ts ∧
        List.Forall₂ (Relation.ReflTransGen StepRes) ss ts := by
  induction fuel with
  | zero => intro ss h; omega
  | succ f ih =>
    intro ss hpot
    obtain ⟨ts0, hts0, hR⟩ := moveLeftOnce_spec ss
    have hRstar : List.Forall₂ (Relation.ReflTransGen StepRes) ss ts0 :=
      hR.imp (fun _ _ hr => Relation.ReflTransGen.single hr)
    have hstep : moveLeftIter (f + 1) ss =
        (if stepsEq ss ts0 = true then Except.ok ts0 else moveLeftIter f ts0) := by
      conv_lhs => rw [moveLeftIter, hts0]
      simp only [bind_ok]
    by_cases he : stepsEq ss ts0 = true
    · exact ⟨ts0, by rw [hstep, if_pos he], hRstar⟩
    · have hne : stepsEq ss ts0 = false := by
        cases h2 : stepsEq ss ts0
        · rfl
        · exact absurd h2 he
      have hlt : stepsPotential ts0 < f := lt_of_lt_of_le (forall₂_pot_lt hR hne)
        (Nat.lt_succ_iff.mp hpot)
      obtain ⟨ts, hts, hR2⟩ := ih ts0 hlt
      exact ⟨ts, by rw [hstep, if_neg he, hts], forall₂_rtg_comp hRstar hR2⟩

/-- `Renderer._move_left` always succeeds (its fuel is sufficient). -/
theorem moveLeft_spec (ss : List Step) :
    ∃ ts, moveLeft ss = .ok ts ∧ List.Forall₂ (Relation.ReflTransGen StepRes) ss ts :=
  moveLeftIter_spec (stepsPotential ss + 1) ss (Nat.lt_succ_self _)

/-- Distance of a step's cursor from its target. -/
def natAbsPot (s : Step) : Nat := (s.cursor.current - s.cursor.target).natAbs

/-- Both columns of a step's cursor are even. -/
def EvS (s : Step) : Prop := (2 ∣ s.cursor.current) ∧ (2 ∣ s.cursor.target)

/-- Both columns of a cursor are even. -/
def EvC (c : Cursor) : Prop := (2 ∣ c.current) ∧ (2 ∣ c.target)

/-- On even columns a single move keeps columns even, keeps the target,
and never increases the distance (no overshoot). -/
theorem stepRes_even {s t : Step} (h : StepRes s t) (he : EvS s) :
    EvS t ∧ t.cursor.target = s.cursor.target ∧ natAbsPot t ≤ natAbsPot s := by
  cases h with
  | inl heq => rw [heq]; exact ⟨he, rfl, le_refl _⟩
  | inr hm =>
    obtain ⟨hlt, hcur⟩ := hm
    obtain ⟨h1, h2⟩ := he
    refine ⟨⟨?_, ?_⟩, ?_, ?_⟩ <;>
      simp only [natAbsPot, hcur, Cursor.add] <;> omega

/-- The single-move invariants extend to chains of moves. -/
theorem rtg_even {s t : Step} (h : Relation.ReflTransGen StepRes s t) (he : EvS s) :
    EvS t ∧ t.cursor.target = s.cursor.target ∧ natAbsPot t ≤ natAbsPot s := by
  induction h with
  | refl => exact ⟨he, rfl, le_refl _⟩
  | tail hprev hstep ih =>
    obtain ⟨he2, htg2, hle2⟩ := ih
    obtain ⟨he3, htg3, hle3⟩ := stepRes_even hstep he2
    exact ⟨he3, htg3.trans htg2, hle3.trans hle2⟩

/-- Summed distances never grow across a full relaxation, and evenness
is preserved. -/
theorem forall₂_natAbs_le {ss ts : List Step}
    (h : List.Forall₂ (Relation.ReflTransGen StepRes) ss ts) (he : ∀ s ∈ ss, EvS s) :
    (ts.map natAbsPot).sum ≤ (ss.map natAbsPot).sum ∧ ∀ t ∈ ts, EvS t := by
  induction h with
  | nil => exact ⟨le_refl 0, by intro t ht; cases ht⟩
  | @cons a b as bs hab htail ih =>
    obtain ⟨hle, hev⟩ := ih (fun s hs => he s (List.mem_cons_of_mem a hs))
    obtain ⟨heb, _, hlb⟩ := rtg_even hab (he a (List.mem_cons_self a as))
    constructor
    · simp only [List.map_cons, List.sum_cons]
      exact Nat.add_le_add hlb hle
    · intro t ht
      cases ht with
      | head => exact heb
      | tail _ h2 => exact hev t h2

/-- `_move_cursors` preserves evenness and moves every unsettled cursor
two columns closer to its target. -/
theorem moveCursorStep_props (c : Cursor) (he : EvC c) :
    EvS (moveCursorStep c) ∧ (moveCursorStep c).cursor.target = c.target ∧
      natAbsPot (moveCursorStep c) ≤ (c.current - c.target).natAbs ∧
      (c.current ≠ c.target →
        natAbsPot (moveCursorStep c) + 2 ≤ (c.current - c.target).natAbs) := by
  obtain ⟨h1, h2⟩ := he
  unfold moveCursorStep
  split_ifs with ha hb <;>
    refine ⟨⟨?_, ?_⟩, ?_, ?_, ?_⟩ <;>
      simp only [natAbsPot, Cursor.add] <;> omega

/-- A settled cursor produces a HOLD step at its own column. -/
theorem moveCursorStep_eq (c : Cursor) (h : c.current = c.target) :
    moveCursorStep c = Step.mk c [(c.current, Symbol.mk .HOLD "")] := by
  unfold moveCursorStep
  split_ifs with ha hb <;> first | rfl | omega

/-- The summed distance after `_move_cursors`: never larger, and smaller
by at least two when some cursor is unsettled. -/
theorem moveCursors_pot (cursors : List Cursor) (he : ∀ c ∈ cursors, EvC c) :
    ((moveCursors cursors).map natAbsPot).sum ≤ cursorsPotential cursors ∧
      (∀ s ∈ moveCursors cursors, EvS s) ∧
      ((∃ c ∈ cursors, c.current ≠ c.target) →
        ((moveCursors cursors).map natAbsPot).sum + 2 ≤ cursorsPotential cursors) := by
  induction cursors with
  | nil =>
    refine ⟨le_refl 0, ?_, ?_⟩
    · intro s hs; cases hs
    · rintro ⟨c, hc, _⟩; cases hc
  | cons c cs ih =>
    obtain ⟨hle, hev, hstrict⟩ := ih (fun x hx => he x (List.mem_cons_of_mem c hx))
    obtain ⟨hec, _, hc1, hc2⟩ := moveCursorStep_props c (he c (List.mem_cons_self c cs))
    simp only [moveCursors, List.map_cons, List.sum_cons, cursorsPotential] at *
    refine ⟨Nat.add_le_add hc1 hle, ?_, ?_⟩
    · intro s hs
      cases hs with
      | head => exact hec
      | tail _ h2 => exact hev s h2
    · rintro ⟨x, hx, hxne⟩
      cases hx with
      | head => have := hc2 hxne; omega
      | tail _ h2 => have := hstrict ⟨x, h2, hxne⟩; omega

/-- `mapME` of a pointwise-identity computation is the identity. -/
theorem mapME_id {α : Type} (f : α → Except String α) (l : List α)
    (h : ∀ a ∈ l, f a = .ok a) : mapME f l = .ok l := by
  induction l with
  | nil => rfl
  | cons a as ih =>
    simp only [mapME, h a (List.mem_cons_self a as),
      ih (fun x hx => h x (List.mem_cons_of_mem a hx))]
    rfl

/-- A pass over settled steps changes nothing. -/
theorem moveLeftOnce_id (ss : List Step)
    (h : ∀ s ∈ ss, s.cursor.current ≤ s.cursor.target) :
    moveLeftOnce ss = .ok ss := by
  apply mapME_id
  intro s hs
  unfold moveLeftStep
  simp [h s hs]

/-- The relaxation loop is the identity on settled steps. -/
theorem moveLeft_id (ss : List Step)
    (h : ∀ s ∈ ss, s.cursor.current ≤ s.cursor.target) :
    moveLeft ss = .ok ss := by
  unfold moveLeft
  conv_lhs => rw [moveLeftIter, moveLeftOnce_id ss h]
  simp only [bind_ok, stepsEq_refl, if_true]

/-- `_make_symbols` finishes as soon as all cursors are settled and a
row has been produced. -/
theorem makeSymbolsAux_done (fuel : Nat) (cursors : List Cursor)
    (canvas : List (List (Int × Symbol)))
    (hall : cursors.all (fun c => c.current = c.target) = true)
    (hcv : canvas.isEmpty = false) :
    makeSymbolsAux fuel cursors canvas = .ok canvas := by
  cases fuel <;> simp [makeSymbolsAux, hall, hcv]

/-- Main induction: with even columns, `_make_symbols` terminates with
fuel exceeding the total cursor distance. -/
theorem makeSymbolsAux_ok (fuel : Nat) :
    ∀ (cursors : List Cursor) (canvas : List (List (Int × Symbol))),
      (∀ c ∈ cursors, EvC c) → cursorsPotential cursors < fuel →
      ∃ out, makeSymbolsAux fuel cursors canvas = .ok out := by
  induction fuel with
  | zero => intro _ _ _ h; omega
  | succ f ih =>
    intro cursors canvas hev hpot
    by_cases hall : cursors.all (fun c => c.current = c.target) = true
    · cases hcv : canvas.isEmpty with
      | false => exact ⟨canvas, makeSymbolsAux_done _ _ _ hall hcv⟩
      | true =>
        have hall2 : ∀ c ∈ cursors, c.current = c.target := by
          intro c hc
          exact of_decide_eq_true (List.all_eq_true.mp hall c hc)
        have hmc : ∀ s ∈ moveCursors cursors, s.cursor.current ≤ s.cursor.target := by
          intro s hs
          obtain ⟨c, hc, hcs⟩ := List.mem_map.mp hs
          rw [← hcs, moveCursorStep_eq c (hall2 c hc)]
          exact le_of_eq (hall2 c hc)
        have hcur : (moveCursors cursors).map (fun s => s.cursor) = cursors := by
          rw [moveCursors, List.map_map]
          have hpt : ∀ c ∈ cursors, ((fun s => s.cursor) ∘ moveCursorStep) c = id c := by
            intro c hc
            simp [Function.comp, moveCursorStep_eq c (hall2 c hc)]
          rw [List.map_congr_left hpt, List.map_id]
        refine ⟨canvas ++ [(moveCursors cursors).flatMap (fun s => s.symbols)], ?_⟩
        have hbranch : (cursors.all (fun c => c.current = c.target) && !canvas.isEmpty) = false := by
          rw [hcv]; simp
        simp only [makeSymbolsAux, hbranch, Bool.false_eq_true, if_false]
        rw [moveLeft_id _ hmc]
        simp only [bind_ok, hcur]
        exact makeSymbolsAux_done f cursors _ hall (by simp)
    · have hallF : cursors.all (fun c => c.current = c.target) = false := by
        cases h2 : cursors.all (fun c => c.current = c.target)
        · rfl
        · exact absurd h2 hall
      have hne : ∃ c ∈ cursors, c.current ≠ c.target := by
        by_contra hco
        push_neg at hco
        exact hall (List.all_eq_true.mpr (fun c hc => decide_eq_true (hco c hc)))
      obtain ⟨hle, hevS, hstrict⟩ := moveCursors_pot cursors hev
      obtain ⟨ts, hts, hR⟩ := moveLeft_spec (moveCursors cursors)
      obtain ⟨hle2, hev2⟩ := forall₂_natAbs_le hR hevS
      have hev3 : ∀ c ∈ ts.map (fun s => s.cursor), EvC c := by
        intro c hc
        obtain ⟨t, ht, hts2⟩ := List.mem_map.mp hc
        rw [← hts2]
        exact hev2 t ht
      have hpotC : cursorsPotential (ts.map (fun s => s.cursor)) = (ts.map natAbsPot).sum := by
        simp only [cursorsPotential, List.map_map]
        rfl
      have hpot2 : cursorsPotential (ts.map (fun s => s.cursor)) < f := by
        have h1 := hstrict hne
        rw [hpotC]
        omega
      obtain ⟨out, hout⟩ :=
        ih (ts.map (fun s => s.cursor)) (canvas ++ [ts.flatMap (fun s => s.symbols)]) hev3 hpot2
      refine ⟨out, ?_⟩
      simp only [makeSymbolsAux, hallF, Bool.false_and, Bool.false_eq_true, if_false]
      rw [hts]
      simp only [bind_ok]
      exact hout

/-- C7: for every finite list of cursors with even current and target
columns the path-row generation terminates: every slide-left relaxation
pass reaches its fixed point within its potential bound, and the outer
loop ends (success of `makeSymbolsTop`, whose stopping condition is
exactly that every cursor's current column equals its target), because
each pass strictly reduces the summed distance to the targets. -/
theorem c7_relaxation_terminates (cursors : List Cursor)
    (h : ∀ c ∈ cursors, (2 ∣ c.current) ∧ (2 ∣ c.target)) :
    ∃ canvas, makeSymbolsTop cursors = Except.ok canvas :=
  makeSymbolsAux_ok (cursorsPotential cursors + 2) cursors [] h (by omega)

/-- Witness for C7 at a concrete cursor list with even columns. -/
theorem c7_relaxation_terminates_witness :
    (∀ c ∈ [Cursor.mk 0 4 0, Cursor.mk 1 0 0], (2 ∣ c.current) ∧ (2 ∣ c.target)) ∧
      ∃ canvas, makeSymbolsTop [Cursor.mk 0 4 0, Cursor.mk 1 0 0] = Except.ok canvas :=
  ⟨by decide, c7_relaxation_terminates [Cursor.mk 0 4 0, Cursor.mk 1 0 0] (by decide)⟩

/-! Lemmas for the determinism analysis (C6): association-list lookups
under permutation, `_init_nodes` as a fold, a denotational (memo-free)
height function, and correctness of the memoised height computation. -/

theorem alookup_none_iff {α : Type} (l : List (Nat × α)) (k : Nat) :
    alookup l k = none ↔ k ∉ akeys l := by
  induction l with
  | nil => simp [alookup, akeys]
  | cons p ps ih =>
    obtain ⟨k', v⟩ := p
    by_cases hk : k = k'
    · simp [alookup, hk, akeys]
    · rw [akeys, List.map_cons, List.mem_cons]
      simp only [alookup, if_neg hk]
      rw [ih]
      rw [akeys]
      constructor
      · intro h hmem
        cases hmem with
        | inl he => exact hk he
        | inr hm => exact h hm
      · intro h hmem
        exact h (Or.inr hmem)

theorem alookup_isSome_of_mem {α : Type} {l : List (Nat × α)} {k : Nat}
    (h : k ∈ akeys l) : ∃ v, alookup l k = some v := by
  cases hl : alookup l k with
  | some v => exact ⟨v, rfl⟩
  | none => exact absurd h ((alookup_none_iff l k).mp hl)

theorem alookup_mem {α : Type} {l : List (Nat × α)} {k : Nat} {v : α}
    (h : alookup l k = some v) : (k, v) ∈ l := by
  induction l with
  | nil => simp [alookup] at h
  | cons p ps ih =>
    obtain ⟨k', v'⟩ := p
    by_cases hk : k = k'
    · simp [alookup, hk] at h
      rw [hk, h]
      exact List.mem_cons_self _ _
    · simp [alookup, hk] at h
      exact List.mem_cons_of_mem _ (ih h)

theorem alookup_of_mem_nodup {α : Type} {l : List (Nat × α)} {k : Nat} {v : α}
    (hnd : (akeys l).Nodup) (h : (k, v) ∈ l) : alookup l k = some v := by
  induction l with
  | nil => cases h
  | cons p ps ih =>
    obtain ⟨k', v'⟩ := p
    rw [akeys, List.map_cons, List.nodup_cons] at hnd
    cases h with
    | head => simp [alookup]
    | tail _ h2 =>
      have hk : k ≠ k' := by
        intro he
        exact hnd.1 (he ▸ List.mem_map.mpr ⟨(k, v), h2, rfl⟩)
      simp [alookup, hk]
      exact ih hnd.2 h2

theorem perm_alookup {α : Type} {l l' : List (Nat × α)} (h : l.Perm l')
    (hnd : (akeys l).Nodup) (k : Nat) : alookup l k = alookup l' k := by
  have hnd' : (akeys l').Nodup := by
    rw [akeys] at hnd ⊢
    exact ((h.map (fun p => p.1)).nodup_iff).mp hnd
  cases hl : alookup l k with
  | some v =>
    exact ((alookup_of_mem_nodup hnd' (h.mem_iff.mp (alookup_mem hl)))).symm
  | none =>
    cases hl' : alookup l' k with
    | none => rfl
    | some v =>
      exfalso
      have := alookup_mem hl'
      have hm : (k, v) ∈ l := h.mem_iff.mpr this
      rw [alookup_of_mem_nodup hnd hm] at hl
      cases hl

theorem setAssoc_mem {α : Type} {l : List (Nat × α)} {k : Nat} {v : α} {p : Nat × α}
    (h : p ∈ setAssoc l k v) : p ∈ l ∨ p = (k, v) := by
  induction l with
  | nil => simp [setAssoc] at h; exact Or.inr h
  | cons q qs ih =>
    obtain ⟨k', v'⟩ := q
    by_cases hk : k = k'
    · simp only [setAssoc, if_pos hk] at h
      cases h with
      | head => exact Or.inr rfl
      | tail _ h2 => exact Or.inl (List.mem_cons_of_mem _ h2)
    · simp only [setAssoc, if_neg hk] at h
      cases h with
      | head => exact Or.inl (List.mem_cons_self _ _)
      | tail _ h2 =>
        cases ih h2 with
        | inl hm => exact Or.inl (List.mem_cons_of_mem _ hm)
        | inr he => exact Or.inr he

theorem setAssoc_akeys {α : Type} (l : List (Nat × α)) (k : Nat) (v : α) :
    ∀ x, x ∈ akeys (setAssoc l k v) ↔ x ∈ akeys l ∨ x = k := by
  intro x
  induction l with
  | nil => simp [setAssoc, akeys]
  | cons q qs ih =>
    obtain ⟨k', v'⟩ := q
    by_cases hk : k = k'
    · subst hk
      simp [setAssoc, akeys]
      tauto
    · rw [setAssoc, if_neg hk]
      rw [akeys, List.map_cons, List.mem_cons, akeys, List.map_cons, List.mem_cons]
      rw [akeys] at ih
      rw [akeys] at ih
      constructor
      · intro h
        cases h with
        | inl he => exact Or.inl (Or.inl he)
        | inr hm => rcases ih.mp hm with h2 | h2
                    · exact Or.inl (Or.inr h2)
                    · exact Or.inr h2
      · intro h
        rcases h with (h2 | h2) | h2
        · exact Or.inl h2
        · exact Or.inr (ih.mpr (Or.inl h2))
        · exact Or.inr (ih.mpr (Or.inr h2))

theorem setAssoc_nodup {α : Type} {l : List (Nat × α)} (hnd : (akeys l).Nodup)
    (k : Nat) (v : α) : (akeys (setAssoc l k v)).Nodup := by
  induction l with
  | nil => simp [setAssoc, akeys]
  | cons q qs ih =>
    obtain ⟨k', v'⟩ := q
    rw [akeys, List.map_cons, List.nodup_cons] at hnd
    by_cases hk : k = k'
    · subst hk
      rw [setAssoc, if_pos rfl, akeys, List.map_cons, List.nodup_cons]
      exact ⟨hnd.1, hnd.2⟩
    · rw [setAssoc, if_neg hk, akeys, List.map_cons, List.nodup_cons]
      refine ⟨?_, ih hnd.2⟩
      intro hmem
      rw [akeys] at *
      rcases (setAssoc_akeys qs k v k').mp hmem with h2 | h2
      · exact hnd.1 h2
      · exact hk h2.symm

def edgeAtoms (g : Graph) : List Nat :=
  g.edges.flatMap (fun p => p.1 :: p.2)

theorem foldl_edges_eq (E : List (Nat × List Nat)) :
    ∀ ns : List (Nat × String),
      E.foldl (fun ns p => p.2.foldl addMissing (addMissing ns p.1)) ns =
        (E.flatMap (fun p => p.1 :: p.2)).foldl addMissing ns := by
  induction E with
  | nil => intro ns; rfl
  | cons p ps ih =>
    intro ns
    rw [List.foldl_cons, List.flatMap_cons, List.foldl_append]
    exact ih _

theorem initNodes_foldl (g : Graph) :
    (initNodes g).nodes = (edgeAtoms g).foldl addMissing g.nodes :=
  foldl_edges_eq g.edges g.nodes

theorem akeys_append {α : Type} (l1 l2 : List (Nat × α)) :
    akeys (l1 ++ l2) = akeys l1 ++ akeys l2 := by
  rw [akeys, akeys, akeys, List.map_append]

theorem addMissing_foldl_mem (xs : List Nat) :
    ∀ (ns : List (Nat × String)) (p1 : Nat) (p2 : String),
      (p1, p2) ∈ xs.foldl addMissing ns ↔
        (p1, p2) ∈ ns ∨ (p2 = "" ∧ p1 ∈ xs ∧ p1 ∉ akeys ns) := by
  induction xs with
  | nil => intro ns p1 p2; simp
  | cons x rest ih =>
    intro ns p1 p2
    rw [List.foldl_cons, ih]
    by_cases hx : hasKey ns x = true
    · rw [addMissing, if_pos hx]
      have hxin : x ∈ akeys ns := by
        rw [hasKey] at hx
        obtain ⟨v, hv⟩ := Option.isSome_iff_exists.mp hx
        exact List.mem_map.mpr ⟨(x, v), alookup_mem hv, rfl⟩
      constructor
      · rintro (h | ⟨h1, h2, h3⟩)
        · exact Or.inl h
        · exact Or.inr ⟨h1, List.mem_cons_of_mem _ h2, h3⟩
      · rintro (h | ⟨h1, h2, h3⟩)
        · exact Or.inl h
        · cases List.mem_cons.mp h2 with
          | inl he => exact absurd (he ▸ hxin) h3
          | inr hm => exact Or.inr ⟨h1, hm, h3⟩
    · rw [addMissing, if_neg hx]
      have hxk : x ∉ akeys ns := by
        intro hmem
        obtain ⟨v, hv⟩ := alookup_isSome_of_mem hmem
        rw [hasKey, hv] at hx
        exact hx rfl
      have hkeys : akeys (ns ++ [(x, "")]) = akeys ns ++ [x] := by
        rw [akeys_append]; rfl
      constructor
      · rintro (h | ⟨h1, h2, h3⟩)
        · cases List.mem_append.mp h with
          | inl hm => exact Or.inl hm
          | inr hm =>
            have he : (p1, p2) = (x, "") := by simpa using hm
            have he1 : p1 = x := (Prod.mk.injEq _ _ _ _).mp he |>.1
            have he2 : p2 = "" := (Prod.mk.injEq _ _ _ _).mp he |>.2
            exact Or.inr ⟨he2, by rw [he1]; exact List.mem_cons_self _ _, he1 ▸ hxk⟩
        · rw [hkeys] at h3
          refine Or.inr ⟨h1, List.mem_cons_of_mem _ h2, fun hmem => h3 ?_⟩
          exact List.mem_append.mpr (Or.inl hmem)
      · rintro (h | ⟨h1, h2, h3⟩)
        · exact Or.inl (List.mem_append.mpr (Or.inl h))
        · cases List.mem_cons.mp h2 with
          | inl he =>
            refine Or.inl (List.mem_append.mpr (Or.inr ?_))
            rw [h1, he]
            exact List.mem_singleton.mpr rfl
          | inr hm =>
            by_cases hpx : p1 = x
            · refine Or.inl (List.mem_append.mpr (Or.inr ?_))
              rw [h1, hpx]
              exact List.mem_singleton.mpr rfl
            · refine Or.inr ⟨h1, hm, ?_⟩
              rw [hkeys]
              intro hmem
              cases List.mem_append.mp hmem with
              | inl h4 => exact h3 h4
              | inr h4 => exact hpx (by simpa using h4)

theorem akeys_mem_iff {α : Type} (l : List (Nat × α)) (k : Nat) :
    k ∈ akeys l ↔ ∃ v, (k, v) ∈ l := by
  rw [akeys]
  constructor
  · intro h
    obtain ⟨p, hp, hk⟩ := List.mem_map.mp h
    exact ⟨p.2, by rwa [show (k, p.2) = p from Prod.ext hk.symm rfl]⟩
  · rintro ⟨v, hv⟩
    exact List.mem_map.mpr ⟨(k, v), hv, rfl⟩

theorem addMissing_foldl_akeys (xs : List Nat) (ns : List (Nat × String)) (k : Nat) :
    k ∈ akeys (xs.foldl addMissing ns) ↔ k ∈ akeys ns ∨ k ∈ xs := by
  rw [akeys_mem_iff]
  constructor
  · rintro ⟨v, hv⟩
    rcases (addMissing_foldl_mem xs ns k v).mp hv with h | ⟨_, h2, _⟩
    · exact Or.inl ((akeys_mem_iff ns k).mpr ⟨v, h⟩)
    · exact Or.inr h2
  · rintro (h | h)
    · obtain ⟨v, hv⟩ := (akeys_mem_iff ns k).mp h
      exact ⟨v, (addMissing_foldl_mem xs ns k v).mpr (Or.inl hv)⟩
    · by_cases hk : k ∈ akeys ns
      · obtain ⟨v, hv⟩ := (akeys_mem_iff ns k).mp hk
        exact ⟨v, (addMissing_foldl_mem xs ns k v).mpr (Or.inl hv)⟩
      · exact ⟨"", (addMissing_foldl_mem xs ns k "").mpr (Or.inr ⟨rfl, h, hk⟩)⟩

theorem addMissing_foldl_nodup (xs : List Nat) :
    ∀ ns : List (Nat × String), (akeys ns).Nodup →
      (akeys (xs.foldl addMissing ns)).Nodup := by
  induction xs with
  | nil => intro ns h; exact h
  | cons x rest ih =>
    intro ns h
    rw [List.foldl_cons]
    apply ih
    unfold addMissing
    by_cases hx : hasKey ns x = true
    · rw [if_pos hx]; exact h
    · rw [if_neg hx, akeys_append]
      rw [List.nodup_append]
      refine ⟨h, List.nodup_singleton x, ?_⟩
      intro a ha hb
      have : a = x := by simpa [akeys] using hb
      subst this
      obtain ⟨v, hv⟩ := alookup_isSome_of_mem ha
      rw [hasKey, hv] at hx
      exact hx rfl

theorem addMissing_foldl_noop (xs : List Nat) :
    ∀ ns : List (Nat × String), (∀ x ∈ xs, x ∈ akeys ns) → xs.foldl addMissing ns = ns := by
  induction xs with
  | nil => intro ns _; rfl
  | cons x rest ih =>
    intro ns h
    rw [List.foldl_cons]
    have hx : hasKey ns x = true := by
      obtain ⟨v, hv⟩ := alookup_isSome_of_mem (h x (List.mem_cons_self x rest))
      rw [hasKey, hv]; rfl
    rw [addMissing, if_pos hx]
    exact ih ns (fun y hy => h y (List.mem_cons_of_mem x hy))

theorem nodup_of_akeys_nodup {α : Type} {l : List (Nat × α)} (h : (akeys l).Nodup) :
    l.Nodup := by
  rw [akeys] at h
  exact h.of_map _

theorem edgeAtoms_mem_iff (g : Graph) (k : Nat) :
    k ∈ edgeAtoms g ↔ ∃ p ∈ g.edges, k = p.1 ∨ k ∈ p.2 := by
  rw [edgeAtoms]
  simp [List.mem_flatMap]

theorem initNodes_mem_iff (g : Graph) (k : Nat) (v : String) :
    (k, v) ∈ (initNodes g).nodes ↔
      (k, v) ∈ g.nodes ∨ (v = "" ∧ k ∈ edgeAtoms g ∧ k ∉ akeys g.nodes) := by
  rw [initNodes_foldl]
  exact addMissing_foldl_mem (edgeAtoms g) g.nodes k v

theorem initNodes_akeys_nodup (g : Graph) (h : (akeys g.nodes).Nodup) :
    (akeys (initNodes g).nodes).Nodup := by
  rw [initNodes_foldl]
  exact addMissing_foldl_nodup (edgeAtoms g) g.nodes h

theorem initNodes_akeys_iff (g : Graph) (k : Nat) :
    k ∈ akeys (initNodes g).nodes ↔ k ∈ akeys g.nodes ∨ k ∈ edgeAtoms g := by
  rw [initNodes_foldl]
  exact addMissing_foldl_akeys (edgeAtoms g) g.nodes k

def dictEquiv (g g' : Graph) : Prop :=
  g.nodes.Perm g'.nodes ∧ g.edges.Perm g'.edges ∧
    (akeys g.nodes).Nodup ∧ (akeys g'.nodes).Nodup ∧
    (akeys g.edges).Nodup ∧ (akeys g'.edges).Nodup ∧
    (∀ p ∈ g.edges, p.2.Nodup) ∧ (∀ p ∈ g'.edges, p.2.Nodup)

theorem dictEquiv_initNodes_perm {g g' : Graph} (h : dictEquiv g g') :
    (initNodes g).nodes.Perm (initNodes g').nodes := by
  obtain ⟨hn, he, hnd, hnd', _, _, _, _⟩ := h
  have h1 : (akeys (initNodes g).nodes).Nodup := initNodes_akeys_nodup g hnd
  have h2 : (akeys (initNodes g').nodes).Nodup := initNodes_akeys_nodup g' hnd'
  rw [List.perm_ext_iff_of_nodup (nodup_of_akeys_nodup h1) (nodup_of_akeys_nodup h2)]
  rintro ⟨k, v⟩
  rw [initNodes_mem_iff, initNodes_mem_iff]
  have hatoms : ∀ x, x ∈ edgeAtoms g ↔ x ∈ edgeAtoms g' := by
    intro x
    rw [edgeAtoms_mem_iff, edgeAtoms_mem_iff]
    constructor
    · rintro ⟨p, hp, hx⟩; exact ⟨p, he.mem_iff.mp hp, hx⟩
    · rintro ⟨p, hp, hx⟩; exact ⟨p, he.mem_iff.mpr hp, hx⟩
  have hkeys : ∀ x, x ∈ akeys g.nodes ↔ x ∈ akeys g'.nodes := by
    intro x
    rw [akeys_mem_iff, akeys_mem_iff]
    constructor
    · rintro ⟨w, hw⟩; exact ⟨w, hn.mem_iff.mp hw⟩
    · rintro ⟨w, hw⟩; exact ⟨w, hn.mem_iff.mpr hw⟩
  rw [hn.mem_iff]
  simp only [hatoms k, hkeys k]

def heightPure (ed : Nat → Option (List Nat)) : Nat → Nat → Except String Nat
  | 0, _ => .error "maximum recursion depth exceeded"
  | f + 1, n =>
    match ed n with
    | none => .ok 0
    | some [] => .error "max() arg is an empty sequence"
    | some (m :: ms) => do
      let h0 ← heightPure ed f m
      let hs ← mapME (heightPure ed f) ms
      .ok (1 + hs.foldl Nat.max h0)

def PureH (ed : Nat → Option (List Nat)) (n h : Nat) : Prop :=
  ∃ f, heightPure ed f n = .ok h

theorem mapME_ok_forall₂ {α β : Type} {f : α → Except String β} :
    ∀ {l : List α} {bs : List β}, mapME f l = .ok bs →
      List.Forall₂ (fun a b => f a = .ok b) l bs := by
  intro l
  induction l with
  | nil => intro bs h; cases h; exact List.Forall₂.nil
  | cons a as ih =>
    intro bs h
    rw [mapME] at h
    cases hfa : f a with
    | error e => rw [hfa] at h; cases h
    | ok b =>
      rw [hfa] at h
      cases hrest : mapME f as with
      | error e => rw [hrest] at h; cases h
      | ok bs' =>
        rw [hrest] at h
        simp only [bind_ok] at h
        have : b :: bs' = bs := Except.ok.inj h
        rw [← this]
        exact List.Forall₂.cons hfa (ih hrest)

theorem forall₂_mapME {α β : Type} {f : α → Except String β} :
    ∀ {l : List α} {bs : List β}, List.Forall₂ (fun a b => f a = .ok b) l bs →
      mapME f l = .ok bs := by
  intro l bs h
  induction h with
  | nil => rfl
  | cons hab htail ih =>
    rw [mapME, hab, ih]
    rfl

theorem foldl_max_extract (xs : List Nat) :
    ∀ a : Nat, xs.foldl Nat.max a = Nat.max a (xs.foldl Nat.max 0) := by
  induction xs with
  | nil => intro a; simp
  | cons x rest ih =>
    intro a
    rw [List.foldl_cons, List.foldl_cons, ih (Nat.max a x), ih (Nat.max 0 x)]
    simp [Nat.max_comm, Nat.max_assoc, Nat.max_left_comm]

theorem perm_foldl_max {xs ys : List Nat} (h : xs.Perm ys) :
    ∀ a : Nat, xs.foldl Nat.max a = ys.foldl Nat.max a := by
  induction h with
  | nil => intro a; rfl
  | cons x _ ih => intro a; rw [List.foldl_cons, List.foldl_cons, ih]
  | swap x y l =>
    intro a
    rw [List.foldl_cons, List.foldl_cons, List.foldl_cons, List.foldl_cons]
    have hmx : Nat.max (Nat.max a y) x = Nat.max (Nat.max a x) y := by
      simp [Nat.max_comm, Nat.max_assoc, Nat.max_left_comm]
    rw [hmx]
  | trans _ _ ih1 ih2 => intro a; rw [ih1, ih2]

theorem heightPure_succ_none {ed : Nat → Option (List Nat)} {n : Nat} (f : Nat)
    (hed : ed n = none) : heightPure ed (f + 1) n = .ok 0 := by
  rw [heightPure, hed]

theorem heightPure_succ_nil {ed : Nat → Option (List Nat)} {n : Nat} (f : Nat)
    (hed : ed n = some []) :
    heightPure ed (f + 1) n = .error "max() arg is an empty sequence" := by
  rw [heightPure, hed]

theorem heightPure_succ_cons {ed : Nat → Option (List Nat)} {n m : Nat} {ms : List Nat}
    (f : Nat) (hed : ed n = some (m :: ms)) :
    heightPure ed (f + 1) n = (do
      let h0 ← heightPure ed f m
      let hs ← mapME (heightPure ed f) ms
      .ok (1 + hs.foldl Nat.max h0)) := by
  rw [heightPure, hed]

theorem heightPure_mono {ed : Nat → Option (List Nat)} :
    ∀ {f f' n h}, heightPure ed f n = .ok h → f ≤ f' → heightPure ed f' n = .ok h := by
  intro f
  induction f with
  | zero => intro f' n h hrun; cases hrun
  | succ f ih =>
    intro f' n h hrun hle
    obtain ⟨f1, rfl⟩ : ∃ f1, f' = f1 + 1 := ⟨f' - 1, by omega⟩
    have hle1 : f ≤ f1 := by omega
    cases hed : ed n with
    | none =>
      rw [heightPure_succ_none f hed] at hrun
      rw [heightPure_succ_none f1 hed]
      exact hrun
    | some l =>
      cases l with
      | nil =>
        rw [heightPure_succ_nil f hed] at hrun
        cases hrun
      | cons m ms =>
        rw [heightPure_succ_cons f hed] at hrun
        rw [heightPure_succ_cons f1 hed]
        cases hm : heightPure ed f m with
        | error e => rw [hm] at hrun; cases hrun
        | ok h0 =>
          rw [hm] at hrun
          simp only [bind_ok] at hrun
          cases hms : mapME (heightPure ed f) ms with
          | error e => rw [hms] at hrun; cases hrun
          | ok hs =>
            rw [hms] at hrun
            simp only [bind_ok] at hrun
            rw [ih hm hle1]
            simp only [bind_ok]
            have hms1 : mapME (heightPure ed f1) ms = .ok hs :=
              forall₂_mapME ((mapME_ok_forall₂ hms).imp (fun _ _ hx => ih hx hle1))
            rw [hms1]
            simp only [bind_ok]
            exact hrun

theorem pureH_det {ed : Nat → Option (List Nat)} {n h h' : Nat}
    (h1 : PureH ed n h) (h2 : PureH ed n h') : h = h' := by
  obtain ⟨f1, hf1⟩ := h1
  obtain ⟨f2, hf2⟩ := h2
  have e1 := heightPure_mono hf1 (Nat.le_max_left f1 f2)
  have e2 := heightPure_mono hf2 (Nat.le_max_right f1 f2)
  rw [e1] at e2
  exact Except.ok.inj e2

def edRel (ed ed' : Nat → Option (List Nat)) : Prop :=
  ∀ k, (ed k = none ∧ ed' k = none) ∨
    (∃ l l', ed k = some l ∧ ed' k = some l' ∧ l.Perm l')

theorem okVal_of_ok {h : Nat} {e : Except String Nat} (he : e = .ok h) :
    e.toOption.getD 0 = h := by  rw [he]; rfl

theorem forall₂_values {α : Type} {f : α → Except String Nat} {l : List α} {bs : List Nat}
    (h : List.Forall₂ (fun a b => f a = .ok b) l bs) :
    ∀ x ∈ l, f x = .ok ((f x).toOption.getD 0) := by
  induction h with
  | nil => intro x hx; cases hx
  | cons hab htail ih =>
    intro x hx
    cases hx with
    | head => rw [hab]; rfl
    | tail _ h2 => exact ih x h2

theorem forall₂_values_eq {α : Type} {f : α → Except String Nat} {l : List α} {bs : List Nat}
    (h : List.Forall₂ (fun a b => f a = .ok b) l bs) :
    bs = l.map (fun x => (f x).toOption.getD 0) := by
  induction h with
  | nil => rfl
  | cons hab htail ih =>
    rw [List.map_cons, ← ih, okVal_of_ok hab]

theorem mapME_of_pointwise {α : Type} {f : α → Except String Nat} {v : α → Nat}
    {l : List α} (h : ∀ x ∈ l, f x = .ok (v x)) : mapME f l = .ok (l.map v) := by
  induction l with
  | nil => rfl
  | cons a as ih =>
    rw [mapME, h a (List.mem_cons_self _ _), ih (fun x hx => h x (List.mem_cons_of_mem _ hx))]
    rfl

theorem heightPure_edRel {ed ed' : Nat → Option (List Nat)} (hrel : edRel ed ed') :
    ∀ {f n h}, heightPure ed f n = .ok h → heightPure ed' f n = .ok h := by
  intro f
  induction f with
  | zero => intro n h hrun; cases hrun
  | succ f ih =>
    intro n h hrun
    rcases hrel n with ⟨hed, hed'⟩ | ⟨l, l', hed, hed', hperm⟩
    · rw [heightPure_succ_none f hed] at hrun
      rw [heightPure_succ_none f hed']
      exact hrun
    · cases l with
      | nil =>
        rw [heightPure_succ_nil f hed] at hrun
        cases hrun
      | cons m ms =>
        cases l' with
        | nil => exact absurd hperm.symm (by simp)
        | cons m' ms' =>
          rw [heightPure_succ_cons f hed] at hrun
          cases hm : heightPure ed f m with
          | error e => rw [hm] at hrun; cases hrun
          | ok h0 =>
            rw [hm] at hrun
            simp only [bind_ok] at hrun
            cases hms : mapME (heightPure ed f) ms with
            | error e => rw [hms] at hrun; cases hrun
            | ok hs =>
              rw [hms] at hrun
              simp only [bind_ok] at hrun
              have hfa := mapME_ok_forall₂ hms
              have hall : ∀ x ∈ m :: ms, heightPure ed f x =
                  .ok ((heightPure ed f x).toOption.getD 0) := by
                intro x hx
                cases hx with
                | head => rw [hm]; rfl
                | tail _ h2 => exact forall₂_values hfa x h2
              have hall' : ∀ x ∈ m' :: ms', heightPure ed' f x =
                  .ok ((heightPure ed f x).toOption.getD 0) := by
                intro x hx
                exact ih (hall x (hperm.mem_iff.mpr hx))
              have hm' : heightPure ed' f m' =
                  .ok ((heightPure ed f m').toOption.getD 0) :=
                hall' m' (List.mem_cons_self _ _)
              have hms' : mapME (heightPure ed' f) ms' =
                  .ok (ms'.map (fun x => (heightPure ed f x).toOption.getD 0)) :=
                mapME_of_pointwise (fun x hx => hall' x (List.mem_cons_of_mem _ hx))
              rw [heightPure_succ_cons f hed', hm']
              simp only [bind_ok]
              rw [hms']
              simp only [bind_ok]
              have hvs : hs = ms.map (fun x => (heightPure ed f x).toOption.getD 0) :=
                forall₂_values_eq hfa
              have hmax :
                  (ms.map (fun x => (heightPure ed f x).toOption.getD 0)).foldl Nat.max
                      ((heightPure ed f m).toOption.getD 0) =
                    (ms'.map (fun x => (heightPure ed f x).toOption.getD 0)).foldl Nat.max
                      ((heightPure ed f m').toOption.getD 0) := by
                have hp2 : ((m :: ms).map (fun x => (heightPure ed f x).toOption.getD 0)).Perm
                    ((m' :: ms').map (fun x => (heightPure ed f x).toOption.getD 0)) :=
                  hperm.map _
                have hp3 := perm_foldl_max hp2 0
                simp only [List.map_cons, List.foldl_cons] at hp3
                rw [foldl_max_extract, foldl_max_extract] at hp3
                rw [foldl_max_extract, foldl_max_extract]
                simp at hp3 ⊢
                omega
              rw [hvs] at hrun
              rw [← hrun, ← okVal_of_ok hm, hmax]

def MemoInv (E : List (Nat × List Nat)) (NK : List Nat) (mapping : List (Nat × Nat)) : Prop :=
  (∀ p ∈ mapping, PureH (alookup E) p.1 p.2) ∧
    (∀ p ∈ mapping, p.1 ∈ NK) ∧ (akeys mapping).Nodup

theorem pureH_common_fuel {ed : Nat → Option (List Nat)} {ms : List Nat} {hs : List Nat}
    (h : List.Forall₂ (fun x hx => PureH ed x hx) ms hs) :
    ∃ F, List.Forall₂ (fun x hx => heightPure ed F x = .ok hx) ms hs := by
  induction h with
  | nil => exact ⟨0, List.Forall₂.nil⟩
  | @cons a b as bs hab htail ih =>
    obtain ⟨f1, hf1⟩ := hab
    obtain ⟨F, hF⟩ := ih
    refine ⟨Nat.max f1 F, List.Forall₂.cons (heightPure_mono hf1 (Nat.le_max_left _ _)) ?_⟩
    exact hF.imp (fun _ _ hx => heightPure_mono hx (Nat.le_max_right _ _))

theorem nodeHeightAux_succ_hit {E : List (Nat × List Nat)} {mapping : List (Nat × Nat)}
    {node h0 : Nat} (f : Nat) (h : alookup mapping node = some h0) :
    nodeHeightAux E (f + 1) mapping node = .ok (mapping, h0) := by
  rw [nodeHeightAux, h]

theorem nodeHeightAux_succ_none {E : List (Nat × List Nat)} {mapping : List (Nat × Nat)}
    {node : Nat} (f : Nat) (hmiss : alookup mapping node = none)
    (hed : alookup E node = none) :
    nodeHeightAux E (f + 1) mapping node = .ok (setAssoc mapping node 0, 0) := by
  rw [nodeHeightAux, hmiss, hed]

theorem nodeHeightAux_succ_cons {E : List (Nat × List Nat)} {mapping : List (Nat × Nat)}
    {node m : Nat} {ms : List Nat} (f : Nat) (hmiss : alookup mapping node = none)
    (hed : alookup E node = some (m :: ms)) :
    nodeHeightAux E (f + 1) mapping node = (do
      let r1 ← nodeHeightAux E f mapping m
      let r2 ← nodeHeightFold (nodeHeightAux E f) r1.1 ms r1.2
      .ok (setAssoc r2.1 node (1 + r2.2), 1 + r2.2)) := by
  rw [nodeHeightAux, hmiss, hed]

theorem nodeHeightFold_spec (E : List (Nat × List Nat)) (NK : List Nat) (fuel : Nat)
    (IH : ∀ (mapping : List (Nat × Nat)) (node : Nat) (res : List (Nat × Nat) × Nat),
      nodeHeightAux E fuel mapping node = .ok res → MemoInv E NK mapping → node ∈ NK →
      MemoInv E NK res.1 ∧ PureH (alookup E) node res.2 ∧
        node ∈ akeys res.1 ∧ (∀ k ∈ akeys mapping, k ∈ akeys res.1)) :
    ∀ (ms : List Nat) (mapping : List (Nat × Nat)) (acc : Nat) (res : List (Nat × Nat) × Nat),
      nodeHeightFold (nodeHeightAux E fuel) mapping ms acc = .ok res →
      MemoInv E NK mapping → (∀ m ∈ ms, m ∈ NK) →
      MemoInv E NK res.1 ∧ (∀ k ∈ akeys mapping, k ∈ akeys res.1) ∧
        ∃ hs, List.Forall₂ (fun x hx => PureH (alookup E) x hx) ms hs ∧
          res.2 = hs.foldl Nat.max acc := by
  intro ms
  induction ms with
  | nil =>
    intro mapping acc res hrun hinv _
    rw [nodeHeightFold] at hrun
    have : (mapping, acc) = res := Except.ok.inj hrun
    rw [← this]
    exact ⟨hinv, fun k hk => hk, [], List.Forall₂.nil, rfl⟩
  | cons m ms ih =>
    intro mapping acc res hrun hinv hms
    rw [nodeHeightFold] at hrun
    cases hr : nodeHeightAux E fuel mapping m with
    | error e => rw [hr] at hrun; cases hrun
    | ok r =>
      rw [hr] at hrun
      simp only [bind_ok] at hrun
      obtain ⟨hinv2, hpure, _, hkeys⟩ :=
        IH mapping m r hr hinv (hms m (List.mem_cons_self _ _))
      obtain ⟨hinv3, hkeys2, hs, hfa, hval⟩ :=
        ih r.1 (Nat.max acc r.2) res hrun hinv2 (fun x hx => hms x (List.mem_cons_of_mem _ hx))
      refine ⟨hinv3, fun k hk => hkeys2 k (hkeys k hk), r.2 :: hs,
        List.Forall₂.cons hpure hfa, ?_⟩
      rw [hval, List.foldl_cons]

theorem nodeHeightAux_spec (E : List (Nat × List Nat)) (NK : List Nat)
    (hclose : ∀ p ∈ E, ∀ m ∈ p.2, m ∈ NK) :
    ∀ (fuel : Nat) (mapping : List (Nat × Nat)) (node : Nat) (res : List (Nat × Nat) × Nat),
      nodeHeightAux E fuel mapping node = .ok res → MemoInv E NK mapping → node ∈ NK →
      MemoInv E NK res.1 ∧ PureH (alookup E) node res.2 ∧
        node ∈ akeys res.1 ∧ (∀ k ∈ akeys mapping, k ∈ akeys res.1) := by
  intro fuel
  induction fuel with
  | zero => intro mapping node res hrun; cases hrun
  | succ f ih =>
    intro mapping node res hrun hinv hNK
    obtain ⟨hpureI, hNKI, hndI⟩ := hinv
    cases hmiss : alookup mapping node with
    | some h0 =>
      rw [nodeHeightAux_succ_hit f hmiss] at hrun
      have hres : (mapping, h0) = res := Except.ok.inj hrun
      rw [← hres]
      have hmem := alookup_mem hmiss
      exact ⟨⟨hpureI, hNKI, hndI⟩, hpureI (node, h0) hmem,
        (akeys_mem_iff _ _).mpr ⟨h0, hmem⟩, fun k hk => hk⟩
    | none =>
      cases hed : alookup E node with
      | none =>
        rw [nodeHeightAux_succ_none f hmiss hed] at hrun
        have hres : (setAssoc mapping node 0, 0) = res := Except.ok.inj hrun
        rw [← hres]
        have hpure0 : PureH (alookup E) node 0 := ⟨1, heightPure_succ_none 0 hed⟩
        refine ⟨⟨?_, ?_, setAssoc_nodup hndI node 0⟩, hpure0, ?_, ?_⟩
        · intro p hp
          rcases setAssoc_mem hp with h | h
          · exact hpureI p h
          · rw [h]; exact hpure0
        · intro p hp
          rcases setAssoc_mem hp with h | h
          · exact hNKI p h
          · rw [h]; exact hNK
        · exact (setAssoc_akeys mapping node 0 node).mpr (Or.inr rfl)
        · intro k hk
          exact (setAssoc_akeys mapping node 0 k).mpr (Or.inl hk)
      | some l =>
        cases l with
        | nil =>
          rw [nodeHeightAux] at hrun
          rw [hmiss, hed] at hrun
          cases hrun
        | cons m ms =>
          rw [nodeHeightAux_succ_cons f hmiss hed] at hrun
          have hmemE := alookup_mem hed
          have hmNK : m ∈ NK := hclose (node, m :: ms) hmemE m (List.mem_cons_self _ _)
          have hmsNK : ∀ x ∈ ms, x ∈ NK :=
            fun x hx => hclose (node, m :: ms) hmemE x (List.mem_cons_of_mem _ hx)
          cases hr1 : nodeHeightAux E f mapping m with
          | error e => rw [hr1] at hrun; cases hrun
          | ok r1 =>
            rw [hr1] at hrun
            simp only [bind_ok] at hrun
            cases hr2 : nodeHeightFold (nodeHeightAux E f) r1.1 ms r1.2 with
            | error e => rw [hr2] at hrun; cases hrun
            | ok r2 =>
              rw [hr2] at hrun
              simp only [bind_ok] at hrun
              have hres : (setAssoc r2.1 node (1 + r2.2), 1 + r2.2) = res :=
                Except.ok.inj hrun
              obtain ⟨hinv1, hpure1, _, hkeys1⟩ :=
                ih mapping m r1 hr1 ⟨hpureI, hNKI, hndI⟩ hmNK
              obtain ⟨hinv2, hkeys2, hs, hfa, hval⟩ :=
                nodeHeightFold_spec E NK f (ih) ms r1.1 r1.2 r2 hr2 hinv1 hmsNK
              obtain ⟨hpure2, hNK2, hnd2⟩ := hinv2
              -- build the pure run for node
              have hpureNode : PureH (alookup E) node (1 + r2.2) := by
                obtain ⟨f0, hf0⟩ := hpure1
                obtain ⟨F1, hF1⟩ := pureH_common_fuel hfa
                refine ⟨Nat.max f0 F1 + 1, ?_⟩
                rw [heightPure_succ_cons (Nat.max f0 F1) hed]
                rw [heightPure_mono hf0 (Nat.le_max_left _ _)]
                simp only [bind_ok]
                rw [forall₂_mapME
                  (hF1.imp (fun _ _ hx => heightPure_mono hx (Nat.le_max_right _ _)))]
                simp only [bind_ok]
                rw [hval]
              rw [← hres]
              refine ⟨⟨?_, ?_, setAssoc_nodup hnd2 node (1 + r2.2)⟩, hpureNode, ?_, ?_⟩
              · intro p hp
                rcases setAssoc_mem hp with h | h
                · exact hpure2 p h
                · rw [h]; exact hpureNode
              · intro p hp
                rcases setAssoc_mem hp with h | h
                · exact hNK2 p h
                · rw [h]; exact hNK
              · exact (setAssoc_akeys r2.1 node (1 + r2.2) node).mpr (Or.inr rfl)
              · intro k hk
                exact (setAssoc_akeys r2.1 node (1 + r2.2) k).mpr
                  (Or.inl (hkeys2 k (hkeys1 k hk)))

theorem nodeHeightsFold_spec (E : List (Nat × List Nat)) (NK : List Nat)
    (hclose : ∀ p ∈ E, ∀ m ∈ p.2, m ∈ NK) (F : Nat) :
    ∀ (ns : List (Nat × String)) (mapping : List (Nat × Nat)) (H : List (Nat × Nat)),
      ns.foldlM (fun mapping p => do
        let r ← nodeHeightAux E F mapping p.1
        pure r.1) mapping = .ok H →
      MemoInv E NK mapping → (∀ p ∈ ns, p.1 ∈ NK) →
      MemoInv E NK H ∧ (∀ k ∈ akeys mapping, k ∈ akeys H) ∧ (∀ p ∈ ns, p.1 ∈ akeys H) := by
  intro ns
  induction ns with
  | nil =>
    intro mapping H hrun hinv _
    rw [List.foldlM_nil] at hrun
    have : mapping = H := Except.ok.inj hrun
    rw [← this]
    exact ⟨hinv, fun k hk => hk, fun p hp => absurd hp (List.not_mem_nil p)⟩
  | cons q qs ih =>
    intro mapping H hrun hinv hns
    rw [List.foldlM_cons] at hrun
    cases hr : nodeHeightAux E F mapping q.1 with
    | error e =>
      rw [hr] at hrun
      cases hrun
    | ok r =>
      rw [hr] at hrun
      simp only [bind_ok] at hrun
      cases F with
      | zero => cases hr
      | succ f =>
        obtain ⟨hinv1, _, hmem1, hkeys1⟩ :=
          nodeHeightAux_spec E NK hclose (f + 1) mapping q.1 r hr hinv
            (hns q (List.mem_cons_self _ _))
        have hrun2 : qs.foldlM (fun mapping p => do
            let r ← nodeHeightAux E (f + 1) mapping p.1
            pure r.1) r.1 = .ok H := hrun
        obtain ⟨hinv2, hkeys2, hmem2⟩ :=
          ih r.1 H hrun2 hinv1 (fun p hp => hns p (List.mem_cons_of_mem _ hp))
        refine ⟨hinv2, fun k hk => hkeys2 k (hkeys1 k hk), ?_⟩
        intro p hp
        cases hp with
        | head => exact hkeys2 q.1 hmem1
        | tail _ h2 => exact hmem2 p h2

theorem nodeHeightsRun_spec (g : Graph)
    (hclose : ∀ p ∈ g.edges, ∀ m ∈ p.2, m ∈ akeys g.nodes) (H : List (Nat × Nat))
    (hrun : nodeHeightsRun g = .ok H) :
    MemoInv g.edges (akeys g.nodes) H ∧ (∀ k, k ∈ akeys H ↔ k ∈ akeys g.nodes) := by
  rw [nodeHeightsRun] at hrun
  obtain ⟨hinv, _, hmem⟩ :=
    nodeHeightsFold_spec g.edges (akeys g.nodes) hclose (g.edges.length + 1) g.nodes [] H hrun
      ⟨fun p hp => absurd hp (List.not_mem_nil p),
        fun p hp => absurd hp (List.not_mem_nil p), List.nodup_nil⟩
      (fun p hp => (akeys_mem_iff _ _).mpr ⟨p.2, hp⟩)
  refine ⟨hinv, fun k => ⟨?_, ?_⟩⟩
  · intro hk
    obtain ⟨v, hv⟩ := (akeys_mem_iff _ _).mp hk
    exact hinv.2.1 (k, v) hv
  · intro hk
    obtain ⟨v, hv⟩ := (akeys_mem_iff _ _).mp hk
    exact hmem (k, v) hv


theorem updateAssoc_lookup (l : List (Nat × List Nat)) (k : Nat) (v : Nat)
    (hfresh : v ∉ (alookup l k).getD []) :
    ∀ x, alookup (updateAssoc l k v) x =
      if x = k then some ((alookup l k).getD [] ++ [v]) else alookup l x := by
  induction l with
  | nil =>
    intro x
    by_cases hx : x = k <;> simp [updateAssoc, alookup, hx]
  | cons q rest ih =>
    obtain ⟨k', vs⟩ := q
    intro x
    by_cases hk : k = k'
    · subst hk
      rw [alookup, if_pos rfl] at hfresh
      have hv : v ∉ vs := by simpa using hfresh
      rw [updateAssoc, if_pos rfl]
      have hvs : (if v ∈ vs then vs else vs ++ [v]) = vs ++ [v] := by
        rw [if_neg hv]
      by_cases hx : x = k
      · subst hx
        rw [alookup, if_pos rfl, alookup, if_pos rfl, if_pos rfl]
        rw [hvs]
        simp [alookup]
      · rw [alookup, if_neg hx, if_neg hx, alookup, if_neg hx]
    · have hfresh2 : v ∉ (alookup rest k).getD [] := by
        rw [alookup, if_neg hk] at hfresh
        exact hfresh
      rw [updateAssoc, if_neg hk]
      by_cases hx : x = k'
      · subst hx
        have hxk : x ≠ k := fun he => hk he.symm
        rw [alookup, if_pos rfl, if_neg hxk, alookup, if_pos rfl]
      · rw [alookup, if_neg hx, ih hfresh2 x]
        by_cases hxk : x = k
        · subst hxk
          rw [if_pos rfl, if_pos rfl]
          rw [alookup, if_neg hk]
        · rw [if_neg hxk, if_neg hxk, alookup, if_neg hx]

theorem updateAssoc_akeys (l : List (Nat × List Nat)) (k : Nat) (v : Nat) :
    ∀ x, x ∈ akeys (updateAssoc l k v) ↔ x ∈ akeys l ∨ x = k := by
  intro x
  induction l with
  | nil => simp [updateAssoc, akeys]
  | cons q rest ih =>
    obtain ⟨k', vs⟩ := q
    by_cases hk : k = k'
    · subst hk
      rw [updateAssoc, if_pos rfl]
      simp only [akeys, List.map_cons, List.mem_cons]
      tauto
    · rw [updateAssoc, if_neg hk]
      simp only [akeys, List.map_cons, List.mem_cons]
      simp only [akeys] at ih
      tauto

theorem updateAssoc_nodup {l : List (Nat × List Nat)} (hnd : (akeys l).Nodup)
    (k : Nat) (v : Nat) : (akeys (updateAssoc l k v)).Nodup := by
  induction l with
  | nil => simp [updateAssoc, akeys]
  | cons q rest ih =>
    obtain ⟨k', vs⟩ := q
    rw [akeys, List.map_cons, List.nodup_cons] at hnd
    by_cases hk : k = k'
    · subst hk
      rw [updateAssoc, if_pos rfl, akeys, List.map_cons, List.nodup_cons]
      exact ⟨hnd.1, hnd.2⟩
    · rw [updateAssoc, if_neg hk, akeys, List.map_cons, List.nodup_cons]
      refine ⟨?_, ih hnd.2⟩
      intro hmem
      rcases (updateAssoc_akeys rest k v k').mp hmem with h | h
      · exact hnd.1 h
      · exact hk h.symm

/-- The raw reverse-adjacency fold of `Graph.reverse_edges`. -/
def revList (E : List (Nat × List Nat)) : List (Nat × List Nat) :=
  E.foldl (fun acc p => p.2.foldl (fun a d => updateAssoc a d p.1) acc) []

theorem reverseEdges_eq (g : Graph) :
    reverseEdges g = initNodes { nodes := g.nodes, edges := revList g.edges } := rfl

theorem initNodes_edges (g : Graph) : (initNodes g).edges = g.edges := rfl

theorem innerFold_lookup (src : Nat) :
    ∀ (dests : List Nat) (acc : List (Nat × List Nat)), dests.Nodup →
      (∀ d ∈ dests, src ∉ (alookup acc d).getD []) →
      ∀ x, alookup (dests.foldl (fun a d => updateAssoc a d src) acc) x =
        if x ∈ dests then some ((alookup acc x).getD [] ++ [src]) else alookup acc x := by
  intro dests
  induction dests with
  | nil =>
    intro acc _ _ x
    simp [List.foldl_nil]
  | cons d ds ih =>
    intro acc hnd hfr x
    rw [List.nodup_cons] at hnd
    rw [List.foldl_cons]
    have hup := updateAssoc_lookup acc d src (hfr d (List.mem_cons_self _ _))
    have hfr2 : ∀ d' ∈ ds, src ∉ (alookup (updateAssoc acc d src) d').getD [] := by
      intro d' hd'
      rw [hup d', if_neg (fun he => hnd.1 (by rw [he] at hd'; exact hd'))]
      exact hfr d' (List.mem_cons_of_mem _ hd')
    rw [ih (updateAssoc acc d src) hnd.2 hfr2 x]
    by_cases hxds : x ∈ ds
    · rw [if_pos hxds, if_pos (List.mem_cons_of_mem _ hxds), hup x,
        if_neg (fun he => hnd.1 (by rw [he] at hxds; exact hxds))]
    · rw [if_neg hxds, hup x]
      by_cases hxd : x = d
      · subst hxd
        rw [if_pos rfl, if_pos (List.mem_cons_self _ _)]
      · rw [if_neg hxd, if_neg (by simp [hxd, hxds])]

theorem innerFold_akeys (src : Nat) :
    ∀ (dests : List Nat) (acc : List (Nat × List Nat)) (x : Nat),
      x ∈ akeys (dests.foldl (fun a d => updateAssoc a d src) acc) ↔
        x ∈ akeys acc ∨ x ∈ dests := by
  intro dests
  induction dests with
  | nil => intro acc x; simp [List.foldl_nil]
  | cons d ds ih =>
    intro acc x
    rw [List.foldl_cons, ih]
    rw [updateAssoc_akeys acc d src x]
    simp only [List.mem_cons]
    tauto

theorem innerFold_nodup (src : Nat) :
    ∀ (dests : List Nat) (acc : List (Nat × List Nat)), (akeys acc).Nodup →
      (akeys (dests.foldl (fun a d => updateAssoc a d src) acc)).Nodup := by
  intro dests
  induction dests with
  | nil => intro acc h; exact h
  | cons d ds ih =>
    intro acc h
    rw [List.foldl_cons]
    exact ih (updateAssoc acc d src) (updateAssoc_nodup h d src)

theorem revFold_lookup :
    ∀ (E : List (Nat × List Nat)) (acc : List (Nat × List Nat)),
      (akeys E).Nodup → (∀ p ∈ E, p.2.Nodup) →
      (∀ p ∈ E, ∀ x, p.1 ∉ (alookup acc x).getD []) →
      ∀ x, alookup (E.foldl (fun acc p => p.2.foldl (fun a d => updateAssoc a d p.1) acc) acc) x =
        if E.filter (fun p => decide (x ∈ p.2)) = [] then alookup acc x
        else some ((alookup acc x).getD [] ++
          (E.filter (fun p => decide (x ∈ p.2))).map (fun p => p.1)) := by
  intro E
  induction E with
  | nil =>
    intro acc _ _ _ x
    simp [List.foldl_nil]
  | cons p ps ih =>
    intro acc hke hve hfr x
    rw [akeys, List.map_cons, List.nodup_cons] at hke
    rw [List.foldl_cons]
    have hin := innerFold_lookup p.1 p.2 acc (hve p (List.mem_cons_self _ _))
      (fun d _ => hfr p (List.mem_cons_self _ _) d)
    have hfr2 : ∀ q ∈ ps, ∀ y, q.1 ∉
        (alookup (p.2.foldl (fun a d => updateAssoc a d p.1) acc) y).getD [] := by
      intro q hq y
      rw [hin y]
      by_cases hy : y ∈ p.2
      · rw [if_pos hy]
        simp only [Option.getD_some, List.mem_append, List.mem_singleton]
        rintro (h1 | h1)
        · exact hfr q (List.mem_cons_of_mem _ hq) y h1
        · exact hke.1 (h1 ▸ List.mem_map.mpr ⟨q, hq, rfl⟩)
      · rw [if_neg hy]
        exact hfr q (List.mem_cons_of_mem _ hq) y
    rw [ih (p.2.foldl (fun a d => updateAssoc a d p.1) acc) hke.2
      (fun q hq => hve q (List.mem_cons_of_mem _ hq)) hfr2 x]
    by_cases hxp : x ∈ p.2
    · have hfc : (p :: ps).filter (fun q => decide (x ∈ q.2)) =
          p :: ps.filter (fun q => decide (x ∈ q.2)) := by
        simp [List.filter_cons, hxp]
      rw [hfc, hin x, if_pos hxp]
      by_cases hps : ps.filter (fun q => decide (x ∈ q.2)) = []
      · rw [if_pos hps, if_neg (by simp), hps]
        simp
      · rw [if_neg hps, if_neg (by simp)]
        simp [List.append_assoc]
    · have hfc : (p :: ps).filter (fun q => decide (x ∈ q.2)) =
          ps.filter (fun q => decide (x ∈ q.2)) := by
        simp [List.filter_cons, hxp]
      rw [hfc, hin x, if_neg hxp]

theorem revList_lookup (E : List (Nat × List Nat)) (hke : (akeys E).Nodup)
    (hve : ∀ p ∈ E, p.2.Nodup) (x : Nat) :
    alookup (revList E) x =
      if E.filter (fun p => decide (x ∈ p.2)) = [] then none
      else some ((E.filter (fun p => decide (x ∈ p.2))).map (fun p => p.1)) := by
  rw [revList, revFold_lookup E [] hke hve (fun p _ x => by simp [alookup]) x]
  simp [alookup]

theorem revList_akeys_nodup (E : List (Nat × List Nat)) :
    (akeys (revList E)).Nodup := by
  rw [revList]
  suffices h : ∀ (acc : List (Nat × List Nat)), (akeys acc).Nodup →
      (akeys (E.foldl (fun acc p => p.2.foldl (fun a d => updateAssoc a d p.1) acc) acc)).Nodup by
    exact h [] (by simp [akeys])
  induction E with
  | nil => intro acc h; exact h
  | cons p ps ih =>
    intro acc h
    rw [List.foldl_cons]
    exact ih _ (innerFold_nodup p.1 p.2 acc h)

theorem edRel_refl (ed : Nat → Option (List Nat)) : edRel ed ed := by
  intro k
  cases h : ed k with
  | none => exact Or.inl ⟨rfl, rfl⟩
  | some l => exact Or.inr ⟨l, l, rfl, rfl, List.Perm.refl l⟩

theorem edRel_of_eq {ed ed' : Nat → Option (List Nat)} (h : ed = ed') : edRel ed ed' := by
  rw [h]; exact edRel_refl ed'

theorem revList_edRel {E E' : List (Nat × List Nat)} (hp : E.Perm E')
    (hke : (akeys E).Nodup) (hke' : (akeys E').Nodup)
    (hve : ∀ p ∈ E, p.2.Nodup) (hve' : ∀ p ∈ E', p.2.Nodup) :
    edRel (alookup (revList E)) (alookup (revList E')) := by
  intro x
  rw [revList_lookup E hke hve x, revList_lookup E' hke' hve' x]
  have hfp : (E.filter (fun p => decide (x ∈ p.2))).Perm
      (E'.filter (fun p => decide (x ∈ p.2))) := hp.filter _
  by_cases h : E.filter (fun p => decide (x ∈ p.2)) = []
  · have h' : E'.filter (fun p => decide (x ∈ p.2)) = [] := by
      rw [h] at hfp
      exact hfp.symm.eq_nil
    rw [if_pos h, if_pos h']
    exact Or.inl ⟨rfl, rfl⟩
  · have h' : ¬ E'.filter (fun p => decide (x ∈ p.2)) = [] := by
      intro hn
      rw [hn] at hfp
      exact h hfp.eq_nil
    rw [if_neg h, if_neg h']
    exact Or.inr ⟨_, _, rfl, rfl, hfp.map _⟩

theorem revList_mem_srcs {E : List (Nat × List Nat)} (hke : (akeys E).Nodup)
    (hve : ∀ p ∈ E, p.2.Nodup) {q : Nat × List Nat} (hq : q ∈ revList E) :
    q.2 = (E.filter (fun p => decide (q.1 ∈ p.2))).map (fun p => p.1) ∧
      ¬ E.filter (fun p => decide (q.1 ∈ p.2)) = [] := by
  have hl : alookup (revList E) q.1 = some q.2 :=
    alookup_of_mem_nodup (revList_akeys_nodup E) hq
  rw [revList_lookup E hke hve q.1] at hl
  by_cases h : E.filter (fun p => decide (q.1 ∈ p.2)) = []
  · rw [if_pos h] at hl
    cases hl
  · rw [if_neg h] at hl
    exact ⟨(Option.some.inj hl).symm, h⟩

theorem revList_akeys_iff (E : List (Nat × List Nat)) (hke : (akeys E).Nodup)
    (hve : ∀ p ∈ E, p.2.Nodup) (x : Nat) :
    x ∈ akeys (revList E) ↔ ∃ p ∈ E, x ∈ p.2 := by
  constructor
  · intro hx
    by_contra hcon
    have hnone : alookup (revList E) x = none := by
      rw [revList_lookup E hke hve x, if_pos]
      rw [List.filter_eq_nil_iff]
      intro p hp
      simp only [decide_eq_true_eq]
      intro hxp
      exact hcon ⟨p, hp, hxp⟩
    exact (alookup_none_iff _ _).mp hnone hx
  · rintro ⟨p, hp, hxp⟩
    by_contra hcon
    have hnone : alookup (revList E) x = none := (alookup_none_iff _ _).mpr hcon
    rw [revList_lookup E hke hve x] at hnone
    by_cases h : E.filter (fun q => decide (x ∈ q.2)) = []
    · rw [List.filter_eq_nil_iff] at h
      have h2 := h p hp
      simp only [decide_eq_true_eq] at h2
      exact h2 hxp
    · rw [if_neg h] at hnone
      cases hnone

theorem revList_atoms_iff (E : List (Nat × List Nat)) (hke : (akeys E).Nodup)
    (hve : ∀ p ∈ E, p.2.Nodup) (x : Nat) :
    x ∈ edgeAtoms { nodes := ([] : List (Nat × String)), edges := revList E } ↔
      (∃ p ∈ E, x ∈ p.2) ∨ (∃ p ∈ E, x = p.1 ∧ ¬ p.2 = []) := by
  rw [edgeAtoms_mem_iff]
  constructor
  · rintro ⟨q, hq, hxq⟩
    obtain ⟨hq2, hne⟩ := revList_mem_srcs hke hve hq
    cases hxq with
    | inl hx1 =>
      left
      have hka : q.1 ∈ akeys (revList E) := (akeys_mem_iff _ _).mpr ⟨q.2, hq⟩
      rw [← hx1] at hka
      exact (revList_akeys_iff E hke hve x).mp hka
    | inr hx2 =>
      right
      rw [hq2] at hx2
      obtain ⟨p, hp, hxp⟩ := List.mem_map.mp hx2
      refine ⟨p, List.mem_of_mem_filter hp, hxp.symm, ?_⟩
      have := List.of_mem_filter hp
      simp only [decide_eq_true_eq] at this
      intro hnil
      rw [hnil] at this
      cases this
  · rintro (⟨p, hp, hxp⟩ | ⟨p, hp, hx1, hne⟩)
    · have hx : x ∈ akeys (revList E) := (revList_akeys_iff E hke hve x).mpr ⟨p, hp, hxp⟩
      obtain ⟨v, hv⟩ := (akeys_mem_iff _ _).mp hx
      exact ⟨(x, v), hv, Or.inl rfl⟩
    · obtain ⟨d, hd⟩ : ∃ d, d ∈ p.2 := by
        cases hp2 : p.2 with
        | nil => exact absurd hp2 hne
        | cons a as => exact ⟨a, List.mem_cons_self a as⟩
      have hdk : d ∈ akeys (revList E) := (revList_akeys_iff E hke hve d).mpr ⟨p, hp, hd⟩
      obtain ⟨v, hv⟩ := (akeys_mem_iff _ _).mp hdk
      refine ⟨(d, v), hv, Or.inr ?_⟩
      obtain ⟨hq2, _⟩ := revList_mem_srcs hke hve hv
      rw [hq2]
      simp only [List.mem_map]
      refine ⟨p, ?_, hx1.symm⟩
      rw [List.mem_filter]
      exact ⟨hp, by simpa using hd⟩

theorem initNodes_closure (g : Graph) :
    ∀ p ∈ (initNodes g).edges, ∀ m ∈ p.2, m ∈ akeys (initNodes g).nodes := by
  intro p hp m hm
  rw [initNodes_akeys_iff]
  right
  rw [edgeAtoms_mem_iff]
  exact ⟨p, hp, Or.inr hm⟩

theorem pureH_edRel {ed ed' : Nat → Option (List Nat)} (hrel : edRel ed ed')
    {n h : Nat} (hp : PureH ed n h) : PureH ed' n h := by
  obtain ⟨f, hf⟩ := hp
  exact ⟨f, heightPure_edRel hrel hf⟩

theorem memo_pointwise {ed ed' : Nat → Option (List Nat)}
    {H H' : List (Nat × Nat)} (hrel : edRel ed ed')
    (h1 : ∀ p ∈ H, PureH ed p.1 p.2) (h1' : ∀ p ∈ H', PureH ed' p.1 p.2)
    (hnd : (akeys H).Nodup) (hnd' : (akeys H').Nodup)
    (hkeys : ∀ k, k ∈ akeys H ↔ k ∈ akeys H') :
    ∀ k, alookup H k = alookup H' k := by
  intro k
  cases hl : alookup H k with
  | none =>
    have hk : k ∉ akeys H := (alookup_none_iff _ _).mp hl
    have hk' : k ∉ akeys H' := fun h => hk ((hkeys k).mpr h)
    exact ((alookup_none_iff _ _).mpr hk').symm
  | some v =>
    have hm : (k, v) ∈ H := alookup_mem hl
    have hk' : k ∈ akeys H' := (hkeys k).mp ((akeys_mem_iff _ _).mpr ⟨v, hm⟩)
    obtain ⟨v', hv'⟩ := (akeys_mem_iff _ _).mp hk'
    have hp : PureH ed' k v := pureH_edRel hrel (h1 (k, v) hm)
    have hp' : PureH ed' k v' := h1' (k, v') hv'
    have : v = v' := pureH_det hp hp'
    rw [this, alookup_of_mem_nodup hnd' hv']

theorem perm_of_pointwise {α : Type} {H H' : List (Nat × α)}
    (hnd : (akeys H).Nodup) (hnd' : (akeys H').Nodup)
    (hpt : ∀ k, alookup H k = alookup H' k) : H.Perm H' := by
  rw [List.perm_ext_iff_of_nodup (nodup_of_akeys_nodup hnd) (nodup_of_akeys_nodup hnd')]
  rintro ⟨k, v⟩
  constructor
  · intro hm
    have := alookup_of_mem_nodup hnd hm
    rw [hpt k] at this
    exact alookup_mem this
  · intro hm
    have := alookup_of_mem_nodup hnd' hm
    rw [← hpt k] at this
    exact alookup_mem this

theorem addToGroup_lookup {α : Type} (l : List (Nat × List α)) (k : Nat) (v : α) :
    ∀ x, alookup (addToGroup l k v) x =
      if x = k then some ((alookup l k).getD [] ++ [v]) else alookup l x := by
  induction l with
  | nil =>
    intro x
    by_cases hx : x = k <;> simp [addToGroup, alookup, hx]
  | cons q rest ih =>
    obtain ⟨k', vs⟩ := q
    intro x
    by_cases hk : k = k'
    · subst hk
      rw [addToGroup, if_pos rfl]
      by_cases hx : x = k
      · subst hx
        rw [alookup, if_pos rfl, if_pos rfl, alookup, if_pos rfl]
        simp [alookup]
      · rw [alookup, if_neg hx, if_neg hx, alookup, if_neg hx]
    · rw [addToGroup, if_neg hk]
      by_cases hx : x = k'
      · subst hx
        have hxk : x ≠ k := fun he => hk he.symm
        rw [alookup, if_pos rfl, if_neg hxk, alookup, if_pos rfl]
      · rw [alookup, if_neg hx, ih x]
        by_cases hxk : x = k
        · subst hxk
          rw [if_pos rfl, if_pos rfl, alookup, if_neg hk]
        · rw [if_neg hxk, if_neg hxk, alookup, if_neg hx]

theorem addToGroup_akeys {α : Type} (l : List (Nat × List α)) (k : Nat) (v : α) :
    ∀ x, x ∈ akeys (addToGroup l k v) ↔ x ∈ akeys l ∨ x = k := by
  intro x
  induction l with
  | nil => simp [addToGroup, akeys]
  | cons q rest ih =>
    obtain ⟨k', vs⟩ := q
    by_cases hk : k = k'
    · subst hk
      rw [addToGroup, if_pos rfl]
      simp only [akeys, List.map_cons, List.mem_cons]
      tauto
    · rw [addToGroup, if_neg hk]
      simp only [akeys, List.map_cons, List.mem_cons]
      simp only [akeys] at ih
      tauto

theorem addToGroup_nodup {α : Type} {l : List (Nat × List α)} (hnd : (akeys l).Nodup)
    (k : Nat) (v : α) : (akeys (addToGroup l k v)).Nodup := by
  induction l with
  | nil => simp [addToGroup, akeys]
  | cons q rest ih =>
    obtain ⟨k', vs⟩ := q
    rw [akeys, List.map_cons, List.nodup_cons] at hnd
    by_cases hk : k = k'
    · subst hk
      rw [addToGroup, if_pos rfl, akeys, List.map_cons, List.nodup_cons]
      exact ⟨hnd.1, hnd.2⟩
    · rw [addToGroup, if_neg hk, akeys, List.map_cons, List.nodup_cons]
      refine ⟨?_, ih hnd.2⟩
      intro hmem
      rcases (addToGroup_akeys rest k v k').mp hmem with h | h
      · exact hnd.1 h
      · exact hk h.symm

theorem groupFold_lookup {α : Type} [DecidableEq α] :
    ∀ (items : List (Nat × α)) (acc : List (Nat × List α)) (x : Nat),
      alookup (items.foldl (fun acc p => addToGroup acc p.1 p.2) acc) x =
        if items.filter (fun q => decide (q.1 = x)) = [] then alookup acc x
        else some ((alookup acc x).getD [] ++
          (items.filter (fun q => decide (q.1 = x))).map (fun q => q.2)) := by
  intro items
  induction items with
  | nil => intro acc x; simp [List.foldl_nil]
  | cons p ps ih =>
    intro acc x
    rw [List.foldl_cons, ih (addToGroup acc p.1 p.2) x]
    by_cases hxp : p.1 = x
    · have hfc : (p :: ps).filter (fun q => decide (q.1 = x)) =
          p :: ps.filter (fun q => decide (q.1 = x)) := by
        simp [List.filter_cons, hxp]
      rw [hfc]
      have hup := addToGroup_lookup acc p.1 p.2 x
      rw [if_pos hxp.symm] at hup
      by_cases hps : ps.filter (fun q => decide (q.1 = x)) = []
      · rw [if_pos hps, if_neg (by simp), hps, hup, hxp]
        simp
      · rw [if_neg hps, if_neg (by simp), hup, hxp]
        simp [List.append_assoc]
    · have hfc : (p :: ps).filter (fun q => decide (q.1 = x)) =
          ps.filter (fun q => decide (q.1 = x)) := by
        simp [List.filter_cons, hxp]
      rw [hfc]
      have hup := addToGroup_lookup acc p.1 p.2 x
      rw [if_neg (fun he => hxp he.symm)] at hup
      rw [hup]

theorem groupByKey_lookup {α : Type} [DecidableEq α] (items : List (Nat × α)) (x : Nat) :
    alookup (groupByKey items) x =
      if items.filter (fun q => decide (q.1 = x)) = [] then none
      else some ((items.filter (fun q => decide (q.1 = x))).map (fun q => q.2)) := by
  rw [groupByKey, groupFold_lookup items [] x]
  simp [alookup]

theorem groupByKey_akeys_nodup {α : Type} (items : List (Nat × α)) :
    (akeys (groupByKey items)).Nodup := by
  rw [groupByKey]
  suffices h : ∀ acc : List (Nat × List α), (akeys acc).Nodup →
      (akeys (items.foldl (fun acc p => addToGroup acc p.1 p.2) acc)).Nodup by
    exact h [] (by simp [akeys])
  induction items with
  | nil => intro acc h; exact h
  | cons p ps ih =>
    intro acc h
    rw [List.foldl_cons]
    exact ih _ (addToGroup_nodup h p.1 p.2)

theorem groupByKey_akeys_iff {α : Type} [DecidableEq α] (items : List (Nat × α)) (x : Nat) :
    x ∈ akeys (groupByKey items) ↔ ∃ q ∈ items, q.1 = x := by
  constructor
  · intro hx
    by_contra hcon
    have hnone : alookup (groupByKey items) x = none := by
      rw [groupByKey_lookup, if_pos]
      rw [List.filter_eq_nil_iff]
      intro q hq
      simp only [decide_eq_true_eq]
      exact fun he => hcon ⟨q, hq, he⟩
    exact (alookup_none_iff _ _).mp hnone hx
  · rintro ⟨q, hq, hqx⟩
    by_contra hcon
    have hnone : alookup (groupByKey items) x = none := (alookup_none_iff _ _).mpr hcon
    rw [groupByKey_lookup] at hnone
    by_cases h : items.filter (fun q => decide (q.1 = x)) = []
    · rw [List.filter_eq_nil_iff] at h
      have h2 := h q hq
      simp only [decide_eq_true_eq] at h2
      exact h2 hqx
    · rw [if_neg h] at hnone
      cases hnone

theorem char_eq_of_toNat_eq {a b : Char} (h : a.toNat = b.toNat) : a = b :=
  Char.eq_of_val_eq (UInt32.ext h)

theorem string_eq_of_data_eq {a b : String} (h : a.data = b.data) : a = b := by
  cases a; cases b; simp_all

theorem lexLt_asymm : ∀ {a b : List Char}, lexLt a b = true → lexLt b a = false := by
  intro a
  induction a with
  | nil =>
    intro b h
    cases b with
    | nil => cases h
    | cons y ys => rfl
  | cons x xs ih =>
    intro b h
    cases b with
    | nil => cases h
    | cons y ys =>
      rw [lexLt] at h ⊢
      by_cases h1 : x.toNat < y.toNat
      · rw [if_neg (by omega : ¬ y.toNat < x.toNat), if_pos h1]
      · rw [if_neg h1] at h
        by_cases h2 : y.toNat < x.toNat
        · rw [if_pos h2] at h
          cases h
        · rw [if_neg h2] at h
          rw [if_neg h2, if_neg h1]
          exact ih h

theorem lexLt_trans : ∀ {a b c : List Char},
    lexLt a b = true → lexLt b c = true → lexLt a c = true := by
  intro a
  induction a with
  | nil =>
    intro b c h1 h2
    cases b with
    | nil => cases h1
    | cons y ys =>
      cases c with
      | nil => cases h2
      | cons z zs => rfl
  | cons x xs ih =>
    intro b c h1 h2
    cases b with
    | nil => cases h1
    | cons y ys =>
      cases c with
      | nil => cases h2
      | cons z zs =>
        rw [lexLt] at h1 h2 ⊢
        by_cases hxy : x.toNat < y.toNat
        · by_cases hyz : y.toNat < z.toNat
          · rw [if_pos (by omega : x.toNat < z.toNat)]
          · rw [if_neg hyz] at h2
            by_cases hzy : z.toNat < y.toNat
            · rw [if_pos hzy] at h2
              cases h2
            · rw [if_pos (by omega : x.toNat < z.toNat)]
        · rw [if_neg hxy] at h1
          by_cases hyx : y.toNat < x.toNat
          · rw [if_pos hyx] at h1
            cases h1
          · rw [if_neg hyx] at h1
            by_cases hyz : y.toNat < z.toNat
            · rw [if_pos (by omega : x.toNat < z.toNat)]
            · rw [if_neg hyz] at h2
              by_cases hzy : z.toNat < y.toNat
              · rw [if_pos hzy] at h2
                cases h2
              · rw [if_neg hzy] at h2
                rw [if_neg (by omega : ¬ x.toNat < z.toNat),
                  if_neg (by omega : ¬ z.toNat < x.toNat)]
                exact ih h1 h2

theorem lexLt_antisymm : ∀ {a b : List Char},
    lexLt a b = false → lexLt b a = false → a = b := by
  intro a
  induction a with
  | nil =>
    intro b h1 _
    cases b with
    | nil => rfl
    | cons y ys => cases h1
  | cons x xs ih =>
    intro b h1 h2
    cases b with
    | nil => cases h2
    | cons y ys =>
      rw [lexLt] at h1 h2
      by_cases hxy : x.toNat < y.toNat
      · rw [if_pos hxy] at h1
        cases h1
      · rw [if_neg hxy] at h1
        by_cases hyx : y.toNat < x.toNat
        · rw [if_pos hyx] at h2
          cases h2
        · rw [if_neg hyx] at h1
          rw [if_neg hxy] at h2
          have hc : x = y := char_eq_of_toNat_eq (by omega)
          rw [hc, ih h1 (by rw [if_neg hyx] at h2; exact h2)]

theorem strLtB_asymm {a b : String} (h : strLtB a b = true) : strLtB b a = false :=
  lexLt_asymm h

theorem strLtB_trans {a b c : String} (h1 : strLtB a b = true) (h2 : strLtB b c = true) :
    strLtB a c = true :=
  lexLt_trans h1 h2

theorem strLtB_antisymm {a b : String} (h1 : strLtB a b = false)
    (h2 : strLtB b a = false) : a = b :=
  string_eq_of_data_eq (lexLt_antisymm h1 h2)

theorem sortKeyLt_asymm (score : Nat → Nat) (label : Nat → String) {a b : Nat}
    (h : sortKeyLt score label a b = true) : sortKeyLt score label b a = false := by
  rw [sortKeyLt] at h ⊢
  by_cases h1 : score b < score a
  · rw [if_neg (by omega : ¬ score a < score b),
      if_neg (by omega : ¬ score b = score a)]
  · rw [if_neg h1] at h
    by_cases h2 : score a = score b
    · rw [if_pos h2] at h
      rw [if_neg (by omega : ¬ score a < score b), if_pos h2.symm]
      exact strLtB_asymm h
    · rw [if_neg h2] at h
      cases h

theorem sortKeyLt_trans (score : Nat → Nat) (label : Nat → String) {a b c : Nat}
    (h1 : sortKeyLt score label a b = true) (h2 : sortKeyLt score label b c = true) :
    sortKeyLt score label a c = true := by
  rw [sortKeyLt] at h1 h2 ⊢
  by_cases hab : score b < score a
  · by_cases hbc : score c < score b
    · rw [if_pos (by omega : score c < score a)]
    · rw [if_neg hbc] at h2
      by_cases he : score b = score c
      · rw [if_pos (by omega : score c < score a)]
      · rw [if_neg he] at h2
        cases h2
  · rw [if_neg hab] at h1
    by_cases he : score a = score b
    · rw [if_pos he] at h1
      by_cases hbc : score c < score b
      · rw [if_pos (by omega : score c < score a)]
      · rw [if_neg hbc] at h2
        by_cases he2 : score b = score c
        · rw [if_pos he2] at h2
          rw [if_neg (by omega : ¬ score c < score a), if_pos (by omega : score a = score c)]
          exact strLtB_trans h1 h2
        · rw [if_neg he2] at h2
          cases h2
    · rw [if_neg he] at h1
      cases h1

theorem sortKeyLt_antisymm (score : Nat → Nat) (label : Nat → String) {a b : Nat}
    (h1 : sortKeyLt score label a b = false) (h2 : sortKeyLt score label b a = false) :
    score a = score b ∧ label a = label b := by
  rw [sortKeyLt] at h1 h2
  by_cases hab : score b < score a
  · rw [if_pos hab] at h1
    cases h1
  · rw [if_neg hab] at h1
    by_cases hba : score a < score b
    · rw [if_pos hba] at h2
      cases h2
    · have he : score a = score b := by omega
      rw [if_pos he] at h1
      rw [if_neg hba, if_pos he.symm] at h2
      exact ⟨he, strLtB_antisymm h1 h2⟩

theorem insertS_perm (lt : Nat → Nat → Bool) (x : Nat) :
    ∀ l : List Nat, (insertS lt x l).Perm (x :: l) := by
  intro l
  induction l with
  | nil => exact List.Perm.refl _
  | cons y ys ih =>
    rw [insertS]
    by_cases h : lt x y = true
    · rw [if_pos h]
    · rw [if_neg h]
      exact (ih.cons y).trans (List.Perm.swap x y ys)

theorem insertS_mem (lt : Nat → Nat → Bool) (x : Nat) (l : List Nat) (z : Nat) :
    z ∈ insertS lt x l ↔ z = x ∨ z ∈ l := by
  rw [(insertS_perm lt x l).mem_iff, List.mem_cons]

theorem insertS_pairwise {lt : Nat → Nat → Bool}
    (htr : ∀ a b c, lt a b = true → lt b c = true → lt a c = true)
    (hasym : ∀ a b, lt a b = true → lt b a = false) (x : Nat) :
    ∀ {l : List Nat}, l.Pairwise (fun a b => lt b a = false) →
      (insertS lt x l).Pairwise (fun a b => lt b a = false) := by
  intro l
  induction l with
  | nil =>
    intro _
    exact List.pairwise_singleton _ _
  | cons y ys ih =>
    intro hp
    rw [List.pairwise_cons] at hp
    rw [insertS]
    by_cases h : lt x y = true
    · rw [if_pos h, List.pairwise_cons]
      refine ⟨?_, List.pairwise_cons.mpr hp⟩
      intro z hz
      cases List.mem_cons.mp hz with
      | inl hzy =>
        rw [hzy]
        exact hasym x y h
      | inr hzys =>
        by_contra hzx
        rw [Bool.not_eq_false] at hzx
        have hzy : lt z y = true := htr z x y hzx h
        rw [hp.1 z hzys] at hzy
        cases hzy
    · rw [if_neg h, List.pairwise_cons]
      refine ⟨?_, ih hp.2⟩
      intro z hz
      cases (insertS_mem lt x ys z).mp hz with
      | inl hzx =>
        rw [hzx]
        exact Bool.not_eq_true _ ▸ h
      | inr hzys => exact hp.1 z hzys

theorem sortStable_perm (lt : Nat → Nat → Bool) (l : List Nat) :
    (sortStable lt l).Perm l := by
  rw [sortStable]
  suffices h : ∀ (l acc : List Nat),
      (l.foldl (fun acc x => insertS lt x acc) acc).Perm (acc ++ l) by
    simpa using h l []
  intro l
  induction l with
  | nil => intro acc; simp
  | cons x xs ih =>
    intro acc
    rw [List.foldl_cons]
    refine (ih (insertS lt x acc)).trans ?_
    refine (((insertS_perm lt x acc).append_right xs).trans ?_)
    exact List.perm_middle.symm

theorem sortStable_pairwise {lt : Nat → Nat → Bool}
    (htr : ∀ a b c, lt a b = true → lt b c = true → lt a c = true)
    (hasym : ∀ a b, lt a b = true → lt b a = false) (l : List Nat) :
    (sortStable lt l).Pairwise (fun a b => lt b a = false) := by
  rw [sortStable]
  suffices h : ∀ (l acc : List Nat), acc.Pairwise (fun a b => lt b a = false) →
      (l.foldl (fun acc x => insertS lt x acc) acc).Pairwise (fun a b => lt b a = false) by
    exact h l [] List.Pairwise.nil
  intro l
  induction l with
  | nil => intro acc h; exact h
  | cons x xs ih =>
    intro acc h
    rw [List.foldl_cons]
    exact ih _ (insertS_pairwise htr hasym x h)

theorem perm_sorted_eq {lt : Nat → Nat → Bool} :
    ∀ {l₁ l₂ : List Nat}, l₁.Perm l₂ →
      l₁.Pairwise (fun a b => lt b a = false) →
      l₂.Pairwise (fun a b => lt b a = false) →
      (∀ a ∈ l₁, ∀ b ∈ l₁, lt a b = false → lt b a = false → a = b) →
      l₁ = l₂ := by
  intro l₁
  induction l₁ with
  | nil =>
    intro l₂ hp _ _ _
    exact hp.nil_eq
  | cons a t₁ ih =>
    intro l₂ hp hs₁ hs₂ hanti
    cases l₂ with
    | nil => exact absurd hp.symm (by simp)
    | cons b t₂ =>
      rw [List.pairwise_cons] at hs₁ hs₂
      have hab : a = b := by
        have hbmem : b ∈ a :: t₁ := hp.mem_iff.mpr (List.mem_cons_self _ _)
        cases List.mem_cons.mp hbmem with
        | inl h => exact h.symm
        | inr hbt₁ =>
          have hamem : a ∈ b :: t₂ := hp.mem_iff.mp (List.mem_cons_self _ _)
          cases List.mem_cons.mp hamem with
          | inl h => exact h
          | inr hat₂ =>
            exact hanti a (List.mem_cons_self _ _) b (List.mem_cons_of_mem _ hbt₁)
              (hs₂.1 a hat₂) (hs₁.1 b hbt₁)
      subst hab
      have hpt : t₁.Perm t₂ := hp.cons_inv
      rw [ih hpt hs₁.2 hs₂.2
        (fun x hx y hy => hanti x (List.mem_cons_of_mem _ hx) y (List.mem_cons_of_mem _ hy))]

theorem sortStable_eq_of_perm {lt : Nat → Nat → Bool}
    (htr : ∀ a b c, lt a b = true → lt b c = true → lt a c = true)
    (hasym : ∀ a b, lt a b = true → lt b a = false)
    {l l' : List Nat} (hp : l.Perm l')
    (hanti : ∀ a ∈ l, ∀ b ∈ l, lt a b = false → lt b a = false → a = b) :
    sortStable lt l = sortStable lt l' := by
  refine perm_sorted_eq ((sortStable_perm lt l).trans (hp.trans (sortStable_perm lt l').symm))
    (sortStable_pairwise htr hasym l) (sortStable_pairwise htr hasym l') ?_
  intro a ha b hb
  exact hanti a ((sortStable_perm lt l).mem_iff.mp ha) b ((sortStable_perm lt l).mem_iff.mp hb)

theorem labels_inj {nodes : List (Nat × String)} (hnd : (akeys nodes).Nodup)
    (hlab : (nodes.map (fun p => p.2)).Nodup) :
    ∀ a b, a ∈ akeys nodes → b ∈ akeys nodes →
      (alookup nodes a).getD "" = (alookup nodes b).getD "" → a = b := by
  intro a b ha hb he
  obtain ⟨va, hva⟩ := (akeys_mem_iff _ _).mp ha
  obtain ⟨vb, hvb⟩ := (akeys_mem_iff _ _).mp hb
  rw [alookup_of_mem_nodup hnd hva, alookup_of_mem_nodup hnd hvb] at he
  simp only [Option.getD_some] at he
  have hpair : (a, va) = (b, vb) :=
    List.inj_on_of_nodup_map hlab hva hvb he
  exact (Prod.mk.injEq _ _ _ _).mp hpair |>.1

theorem alookup_map_snd {α β : Type} (l : List (Nat × α)) (f : α → β) (k : Nat) :
    alookup (l.map (fun p => (p.1, f p.2))) k = (alookup l k).map f := by
  induction l with
  | nil => rfl
  | cons p ps ih =>
    rw [List.map_cons, alookup, alookup]
    by_cases hk : k = p.1
    · rw [if_pos hk, if_pos hk]
      rfl
    · rw [if_neg hk, if_neg hk, ih]

theorem akeys_map_snd {α β : Type} (l : List (Nat × α)) (f : α → β) :
    akeys (l.map (fun p => (p.1, f p.2))) = akeys l := by
  rw [akeys, akeys, List.map_map]
  rfl

theorem maxKey_perm {α β : Type} (l : List (Nat × α)) (l' : List (Nat × β))
    (h : (akeys l).Perm (akeys l')) : maxKey l = maxKey l' := by
  cases hm : l.map (fun p => p.1) with
  | nil =>
    have hm' : l'.map (fun p => p.1) = [] := by
      have : akeys l = [] := hm
      rw [this] at h
      exact h.nil_eq.symm
    rw [maxKey, maxKey, hm, hm']
  | cons k ks =>
    cases hm' : l'.map (fun p => p.1) with
    | nil =>
      have hx : akeys l' = [] := hm'
      rw [hx] at h
      have : akeys l = [] := h.eq_nil
      rw [show akeys l = l.map (fun p => p.1) from rfl, hm] at this
      cases this
    | cons k' ks' =>
      rw [maxKey, maxKey, hm, hm']
      have e1 : ks.foldl Nat.max k = (akeys l).foldl Nat.max 0 := by
        rw [show akeys l = l.map (fun p => p.1) from rfl, hm, List.foldl_cons,
          show Nat.max 0 k = k by simp]
      have e2 : ks'.foldl Nat.max k' = (akeys l').foldl Nat.max 0 := by
        rw [show akeys l' = l'.map (fun p => p.1) from rfl, hm', List.foldl_cons,
          show Nat.max 0 k' = k' by simp]
      show Except.ok (ks.foldl Nat.max k) = Except.ok (ks'.foldl Nat.max k')
      rw [e1, e2, perm_foldl_max h 0]

theorem bind_error {α β : Type} (e : String) (f : α → Except String β) :
    (Except.error e : Except String α) >>= f = .error e := rfl

theorem initNodes_akeys_mem_iff {g g' : Graph} (hd : dictEquiv g g') (k : Nat) :
    k ∈ akeys (initNodes g).nodes ↔ k ∈ akeys (initNodes g').nodes := by
  have hp := dictEquiv_initNodes_perm hd
  rw [akeys_mem_iff, akeys_mem_iff]
  constructor
  · rintro ⟨v, hv⟩; exact ⟨v, hp.mem_iff.mp hv⟩
  · rintro ⟨v, hv⟩; exact ⟨v, hp.mem_iff.mpr hv⟩

theorem edges_alookup_eq {g g' : Graph} (hd : dictEquiv g g') :
    alookup g.edges = alookup g'.edges := by
  obtain ⟨_, he, _, _, hke, _, _, _⟩ := hd
  exact funext (fun k => perm_alookup he hke k)

theorem nodes_alookup_eq {g g' : Graph} (hd : dictEquiv g g') :
    alookup (initNodes g).nodes = alookup (initNodes g').nodes := by
  have hp := dictEquiv_initNodes_perm hd
  have hnd : (akeys (initNodes g).nodes).Nodup := initNodes_akeys_nodup g hd.2.2.1
  exact funext (fun k => perm_alookup hp hnd k)

theorem heights_pointwise {g g' : Graph} (hd : dictEquiv g g')
    {H H' : List (Nat × Nat)}
    (hH : nodeHeightsRun (initNodes g) = .ok H)
    (hH' : nodeHeightsRun (initNodes g') = .ok H') :
    (∀ k, alookup H k = alookup H' k) ∧ (akeys H).Nodup ∧ (akeys H').Nodup ∧
      (∀ k, k ∈ akeys H ↔ k ∈ akeys (initNodes g).nodes) := by
  obtain ⟨hinv, hkiff⟩ := nodeHeightsRun_spec (initNodes g) (initNodes_closure g) H hH
  obtain ⟨hinv', hkiff'⟩ := nodeHeightsRun_spec (initNodes g') (initNodes_closure g') H' hH'
  have hrel : edRel (alookup (initNodes g).edges) (alookup (initNodes g').edges) := by
    apply edRel_of_eq
    rw [initNodes_edges, initNodes_edges]
    exact edges_alookup_eq hd
  have hkeys : ∀ k, k ∈ akeys H ↔ k ∈ akeys H' := by
    intro k
    rw [hkiff k, hkiff' k]
    exact initNodes_akeys_mem_iff hd k
  exact ⟨memo_pointwise hrel hinv.1 hinv'.1 hinv.2.2 hinv'.2.2 hkeys,
    hinv.2.2, hinv'.2.2, hkiff⟩

theorem rev_nodes_akeys_iff {g g' : Graph} (hd : dictEquiv g g') (k : Nat) :
    k ∈ akeys (reverseEdges (initNodes g)).nodes ↔
      k ∈ akeys (reverseEdges (initNodes g')).nodes := by
  obtain ⟨hn, he, hnd, hnd', hke, hke', hve, hve'⟩ := hd
  have h1 : ∀ x, x ∈ edgeAtoms { nodes := (initNodes g).nodes, edges := revList (initNodes g).edges } ↔
      (∃ p ∈ g.edges, x ∈ p.2) ∨ (∃ p ∈ g.edges, x = p.1 ∧ ¬ p.2 = []) := by
    intro x
    have he2 : edgeAtoms { nodes := (initNodes g).nodes, edges := revList (initNodes g).edges } =
        edgeAtoms { nodes := ([] : List (Nat × String)), edges := revList g.edges } := rfl
    rw [he2]
    exact revList_atoms_iff g.edges hke hve x
  have h1' : ∀ x, x ∈ edgeAtoms { nodes := (initNodes g').nodes, edges := revList (initNodes g').edges } ↔
      (∃ p ∈ g'.edges, x ∈ p.2) ∨ (∃ p ∈ g'.edges, x = p.1 ∧ ¬ p.2 = []) := by
    intro x
    have he2 : edgeAtoms { nodes := (initNodes g').nodes, edges := revList (initNodes g').edges } =
        edgeAtoms { nodes := ([] : List (Nat × String)), edges := revList g'.edges } := rfl
    rw [he2]
    exact revList_atoms_iff g'.edges hke' hve' x
  have hkeyiff : k ∈ akeys (initNodes g).nodes ↔ k ∈ akeys (initNodes g').nodes :=
    initNodes_akeys_mem_iff ⟨hn, he, hnd, hnd', hke, hke', hve, hve'⟩ k
  have hmem : ∀ q, q ∈ g.edges ↔ q ∈ g'.edges := fun q => he.mem_iff
  have s1 : k ∈ akeys (reverseEdges (initNodes g)).nodes ↔
      (k ∈ akeys (initNodes g).nodes ∨
        ((∃ p ∈ g.edges, k ∈ p.2) ∨ (∃ p ∈ g.edges, k = p.1 ∧ ¬ p.2 = []))) := by
    rw [reverseEdges_eq]
    exact (initNodes_akeys_iff _ k).trans (or_congr Iff.rfl (h1 k))
  have s1' : k ∈ akeys (reverseEdges (initNodes g')).nodes ↔
      (k ∈ akeys (initNodes g').nodes ∨
        ((∃ p ∈ g'.edges, k ∈ p.2) ∨ (∃ p ∈ g'.edges, k = p.1 ∧ ¬ p.2 = []))) := by
    rw [reverseEdges_eq]
    exact (initNodes_akeys_iff _ k).trans (or_congr Iff.rfl (h1' k))
  refine s1.trans (Iff.trans ?_ s1'.symm)
  refine or_congr hkeyiff (or_congr ?_ ?_)
  · constructor
    · rintro ⟨p, hp, hx⟩; exact ⟨p, (hmem p).mp hp, hx⟩
    · rintro ⟨p, hp, hx⟩; exact ⟨p, (hmem p).mpr hp, hx⟩
  · constructor
    · rintro ⟨p, hp, hx1, hx2⟩; exact ⟨p, (hmem p).mp hp, hx1, hx2⟩
    · rintro ⟨p, hp, hx1, hx2⟩; exact ⟨p, (hmem p).mpr hp, hx1, hx2⟩

theorem rev_heights_pointwise {g g' : Graph} (hd : dictEquiv g g')
    {R R' : List (Nat × Nat)}
    (hR : nodeHeightsRun (reverseEdges (initNodes g)) = .ok R)
    (hR' : nodeHeightsRun (reverseEdges (initNodes g')) = .ok R') :
    (∀ k, alookup R k = alookup R' k) := by
  obtain ⟨hinv, hkiff⟩ := nodeHeightsRun_spec (reverseEdges (initNodes g))
    (by rw [reverseEdges_eq]; exact initNodes_closure _) R hR
  obtain ⟨hinv', hkiff'⟩ := nodeHeightsRun_spec (reverseEdges (initNodes g'))
    (by rw [reverseEdges_eq]; exact initNodes_closure _) R' hR'
  obtain ⟨hn, he, hnd, hnd', hke, hke', hve, hve'⟩ := hd
  have hrel : edRel (alookup (reverseEdges (initNodes g)).edges)
      (alookup (reverseEdges (initNodes g')).edges) := by
    have e1 : (reverseEdges (initNodes g)).edges = revList g.edges := rfl
    have e1' : (reverseEdges (initNodes g')).edges = revList g'.edges := rfl
    rw [e1, e1']
    exact revList_edRel he hke hke' hve hve'
  have hkeys : ∀ k, k ∈ akeys R ↔ k ∈ akeys R' := by
    intro k
    rw [hkiff k, hkiff' k]
    exact rev_nodes_akeys_iff ⟨hn, he, hnd, hnd', hke, hke', hve, hve'⟩ k
  exact memo_pointwise hrel hinv.1 hinv'.1 hinv.2.2 hinv'.2.2 hkeys

theorem heightGroups_eq {g g' : Graph} (hd : dictEquiv g g')
    {H H' R R' : List (Nat × Nat)}
    (hH : nodeHeightsRun (initNodes g) = .ok H)
    (hH' : nodeHeightsRun (initNodes g') = .ok H')
    (hR : nodeHeightsRun (reverseEdges (initNodes g)) = .ok R)
    (hR' : nodeHeightsRun (reverseEdges (initNodes g')) = .ok R')
    (hlab : ((initNodes g).nodes.map (fun p => p.2)).Nodup) :
    (∀ k, alookup (heightGroupsFrom (initNodes g) H R) k =
        alookup (heightGroupsFrom (initNodes g') H' R') k) ∧
      maxKey (heightGroupsFrom (initNodes g) H R) =
        maxKey (heightGroupsFrom (initNodes g') H' R') := by
  obtain ⟨hpt, hndH, hndH', hkiff⟩ := heights_pointwise hd hH hH'
  have hptR := rev_heights_pointwise hd hR hR'
  have hsc : scoreOf H R = scoreOf H' R' :=
    funext (fun n => by rw [scoreOf, scoreOf, hpt n, hptR n])
  have hlabf : getNodeLabel (initNodes g) = getNodeLabel (initNodes g') :=
    funext (fun n => by rw [getNodeLabel, getNodeLabel, nodes_alookup_eq hd])
  have hHp : H.Perm H' := perm_of_pointwise hndH hndH' hpt
  have hMp : (H.map (fun p => (p.2, p.1))).Perm (H'.map (fun p => (p.2, p.1))) :=
    hHp.map _
  have hlt : sortKeyLt (scoreOf H' R') (getNodeLabel (initNodes g')) =
      sortKeyLt (scoreOf H R) (getNodeLabel (initNodes g)) := by
    rw [hsc, hlabf]
  have hinj : ∀ a b, a ∈ akeys H → b ∈ akeys H →
      sortKeyLt (scoreOf H R) (getNodeLabel (initNodes g)) a b = false →
      sortKeyLt (scoreOf H R) (getNodeLabel (initNodes g)) b a = false → a = b := by
    intro a b ha hb hf1 hf2
    obtain ⟨_, helab⟩ := sortKeyLt_antisymm _ _ hf1 hf2
    exact labels_inj (initNodes_akeys_nodup g hd.2.2.1) hlab a b
      ((hkiff a).mp ha) ((hkiff b).mp hb) helab
  have hmemgrp : ∀ k x, x ∈ ((H.map (fun p => (p.2, p.1))).filter
      (fun q => decide (q.1 = k))).map (fun q => q.2) → x ∈ akeys H := by
    intro k x hx
    obtain ⟨q, hq, hqx⟩ := List.mem_map.mp hx
    have hqM := List.mem_of_mem_filter hq
    obtain ⟨p, hp, hpq⟩ := List.mem_map.mp hqM
    rw [← hqx, ← hpq]
    exact (akeys_mem_iff _ _).mpr ⟨p.2, by simpa using hp⟩
  constructor
  · intro k
    have e1 : alookup (heightGroupsFrom (initNodes g) H R) k =
        (alookup (groupByKey (H.map (fun p => (p.2, p.1)))) k).map
          (sortStable (sortKeyLt (scoreOf H R) (getNodeLabel (initNodes g)))) :=
      alookup_map_snd _ _ k
    have e1' : alookup (heightGroupsFrom (initNodes g') H' R') k =
        (alookup (groupByKey (H'.map (fun p => (p.2, p.1)))) k).map
          (sortStable (sortKeyLt (scoreOf H' R') (getNodeLabel (initNodes g')))) :=
      alookup_map_snd _ _ k
    rw [e1, e1', hlt, groupByKey_lookup, groupByKey_lookup]
    have hfp : ((H.map (fun p => (p.2, p.1))).filter (fun q => decide (q.1 = k))).Perm
        ((H'.map (fun p => (p.2, p.1))).filter (fun q => decide (q.1 = k))) :=
      hMp.filter _
    by_cases hnil : (H.map (fun p => (p.2, p.1))).filter (fun q => decide (q.1 = k)) = []
    · have hnil' : (H'.map (fun p => (p.2, p.1))).filter (fun q => decide (q.1 = k)) = [] := by
        rw [hnil] at hfp
        exact hfp.symm.eq_nil
      rw [if_pos hnil, if_pos hnil']
    · have hnil' : ¬ (H'.map (fun p => (p.2, p.1))).filter (fun q => decide (q.1 = k)) = [] := by
        intro hcon
        rw [hcon] at hfp
        exact hnil hfp.eq_nil
      rw [if_neg hnil, if_neg hnil']
      simp only [Option.map_some']
      congr 1
      exact @sortStable_eq_of_perm (sortKeyLt (scoreOf H R) (getNodeLabel (initNodes g)))
        (fun a b c => sortKeyLt_trans _ _)
        (fun a b => sortKeyLt_asymm _ _) _ _
        (hfp.map _)
        (fun a ha b hb => hinj a b (hmemgrp k a ha) (hmemgrp k b hb))
  · apply maxKey_perm
    have e2 : akeys (heightGroupsFrom (initNodes g) H R) =
        akeys (groupByKey (H.map (fun p => (p.2, p.1)))) :=
      akeys_map_snd _ _
    have e2' : akeys (heightGroupsFrom (initNodes g') H' R') =
        akeys (groupByKey (H'.map (fun p => (p.2, p.1)))) :=
      akeys_map_snd _ _
    rw [e2, e2']
    rw [List.perm_ext_iff_of_nodup (groupByKey_akeys_nodup _) (groupByKey_akeys_nodup _)]
    intro k
    rw [groupByKey_akeys_iff, groupByKey_akeys_iff]
    constructor
    · rintro ⟨q, hq, hqk⟩; exact ⟨q, hMp.mem_iff.mp hq, hqk⟩
    · rintro ⟨q, hq, hqk⟩; exact ⟨q, hMp.mem_iff.mpr hq, hqk⟩

theorem passesBelow_congr {g g' : Graph} {H H' : List (Nat × Nat)}
    (hE : alookup g.edges = alookup g'.edges) (hHf : alookup H = alookup H') :
    passesBelow g H = passesBelow g' H' := by
  funext h nd node
  rw [passesBelow, passesBelow, hE, hHf]

theorem computePassingBy_congr {g g' : Graph} {H H' : List (Nat × Nat)}
    (hE : alookup g.edges = alookup g'.edges) (hHf : alookup H = alookup H') :
    computePassingBy g H = computePassingBy g' H' := by
  funext h tr
  rw [computePassingBy, computePassingBy, passesBelow_congr hE hHf]

theorem makePlanInit_congr {hg hg' : List (Nat × List Nat)}
    (hhg : ∀ k, alookup hg k = alookup hg' k) :
    makePlanInit hg = makePlanInit hg' := by
  funext h
  rw [makePlanInit, makePlanInit, hhg h]

theorem makePlanRun_congr {g g' : Graph} {H H' : List (Nat × Nat)}
    {hg hg' : List (Nat × List Nat)}
    (hE : alookup g.edges = alookup g'.edges) (hHf : alookup H = alookup H')
    (hhg : ∀ k, alookup hg k = alookup hg' k) (hmx : maxKey hg = maxKey hg') :
    makePlanRun g H hg = makePlanRun g' H' hg' := by
  rw [makePlanRun, makePlanRun, hmx, makePlanInit_congr hhg,
    computePassingBy_congr hE hHf]

theorem makeCursor_congr {g g' : Graph}
    (hE : alookup g.edges = alookup g'.edges) :
    makeCursor g = makeCursor g' := by
  funext curr next
  rw [makeCursor, makeCursor, hE]

theorem makeCursorsRun_congr {g g' : Graph}
    (hE : alookup g.edges = alookup g'.edges) :
    makeCursorsRun g = makeCursorsRun g' := by
  funext tracking mx
  rw [makeCursorsRun, makeCursorsRun, makeCursor_congr hE]

theorem getNodeLabel_congr {g g' : Graph}
    (hN : alookup g.nodes = alookup g'.nodes) :
    getNodeLabel g = getNodeLabel g' := by
  funext n
  rw [getNodeLabel, getNodeLabel, hN]

theorem drawCursors_congr {g g' : Graph}
    (hN : alookup g.nodes = alookup g'.nodes) :
    drawCursors g = drawCursors g' := by
  funext cs
  rw [drawCursors, drawCursors, getNodeLabel_congr hN]

theorem makeCanvas_congr {g g' : Graph}
    (hN : alookup g.nodes = alookup g'.nodes) :
    makeCanvas g = makeCanvas g' := by
  funext cl
  rw [makeCanvas, makeCanvas, drawCursors_congr hN]

/-- C6 (amended): rendering is insensitive to the insertion order of the
two input mappings provided the registered node labels are pairwise
distinct: for graphs whose `(labels, edges)` mappings are equal as sets
of key-value pairs (with duplicate-free keys and neighbour sets) and
whose height-group computation succeeds, `render` is byte-identical.
(With duplicate labels the per-level sort key is not injective and
Python's stable sort exposes the insertion order; see the
counterexample.) -/
theorem c6_amended_determinism (g g' : Graph) (opts : PrinterOptions)
    (hd : dictEquiv g g')
    (hok : (heightGroupsRun g).isOk = true)
    (hok' : (heightGroupsRun g').isOk = true)
    (hlab : ((initNodes g).nodes.map (fun p => p.2)).Nodup) :
    render g opts = render g' opts := by
  cases hH : nodeHeightsRun (initNodes g) with
  | error e =>
    rw [heightGroupsRun] at hok
    simp only [hH, bind_error, isOk_error] at hok
    exact Bool.noConfusion hok
  | ok H =>
  cases hR : nodeHeightsRun (reverseEdges (initNodes g)) with
  | error e =>
    rw [heightGroupsRun] at hok
    simp only [hH, bind_ok, hR, bind_error, isOk_error] at hok
    exact Bool.noConfusion hok
  | ok R =>
  cases hH' : nodeHeightsRun (initNodes g') with
  | error e =>
    rw [heightGroupsRun] at hok'
    simp only [hH', bind_error, isOk_error] at hok'
    exact Bool.noConfusion hok'
  | ok H' =>
  cases hR' : nodeHeightsRun (reverseEdges (initNodes g')) with
  | error e =>
    rw [heightGroupsRun] at hok'
    simp only [hH', bind_ok, hR', bind_error, isOk_error] at hok'
    exact Bool.noConfusion hok'
  | ok R' =>
  obtain ⟨hhg, hmx⟩ := heightGroups_eq hd hH hH' hR hR' hlab
  have hE : alookup (initNodes g).edges = alookup (initNodes g').edges := by
    rw [initNodes_edges, initNodes_edges]
    exact edges_alookup_eq hd
  have hHf : alookup H = alookup H' := funext (heights_pointwise hd hH hH').1
  have hN := nodes_alookup_eq hd
  simp only [render, hH, hH', hR, hR', bind_ok]
  rw [makePlanRun_congr hE hHf hhg hmx, hmx, makeCursorsRun_congr hE, makeCanvas_congr hN]

/-- The two-leaves graph with distinct labels, used to witness the
amended determinism theorem. -/
def c6wA : Graph :=
  { nodes := [(0, "L0"), (1, "L1"), (2, "L2")], edges := [(0, [2]), (1, [2])] }

/-- The same mappings as `c6wA`, inserted in a different order. -/
def c6wB : Graph :=
  { nodes := [(1, "L1"), (2, "L2"), (0, "L0")], edges := [(1, [2]), (0, [2])] }

theorem c6_amended_determinism_witness :
    dictEquiv c6wA c6wB ∧ (heightGroupsRun c6wA).isOk = true ∧
      (heightGroupsRun c6wB).isOk = true ∧
      ((initNodes c6wA).nodes.map (fun p => p.2)).Nodup ∧
      render c6wA {} = render c6wB {} :=
  ⟨by unfold dictEquiv; decide, by rfl, by rfl, by decide,
    c6_amended_determinism c6wA c6wB {} (by unfold dictEquiv; decide) (by rfl) (by rfl)
      (by decide)⟩

end GraphAscii
